import Mathlib

/-!
Verification of the CFG normalization pipeline in kklab2.py.

The source operates on a grammar record with a nonterminal collection, a
terminal set, a production map from heads to lists of bodies, and a start
symbol.  We embed the program shallowly:

  * a Python list of symbols becomes a Lean list of strings;
  * the production dict becomes an association list preserving key order
    (Python dicts preserve insertion order);
  * Python sets (the nullable set, the per-head body set in the epsilon
    eliminator, the nonterminal set used by the driver) become duplicate-free
    Lean lists kept in first-seen order, so that set membership is faithful
    while iteration order is fixed deterministically;
  * the fixed-point loop of find_nullable is given explicit fuel, and we
    prove the fuel always suffices, so the embedding computes the same
    fixed point the unbounded Python loop does.
-/

namespace Kklab2

/-- A production body: an ordered list of symbols.  The empty list is an
epsilon body. -/
abbrev Body := List String

/-- The production map: an association list from heads to body lists,
modelling the insertion-ordered Python dict. -/
abbrev PMap := List (String × List Body)

/-- The grammar record of class CFG in kklab2.py: nonterminals N, terminals
Sigma, productions P, start symbol S. -/
structure CFG where
  N : List String
  Sigma : List String
  P : PMap
  S : String
deriving DecidableEq

/-- Dict lookup returning the first value bound to the key, with the empty
body list as default for a missing key. -/
def lookupD : PMap → String → List Body
  | [], _ => []
  | (k, v) :: rest, a => if k = a then v else lookupD rest a

/-- Update the value at the first occurrence of a key of a dict, leaving the
dict unchanged when the key is absent. -/
def setKeyF : PMap → String → (List Body → List Body) → PMap
  | [], _, _ => []
  | (k, v) :: rest, a, f => if k = a then (k, f v) :: rest else (k, v) :: setKeyF rest a f

/-- Set or append a key binding, modelling Python dict assignment: replace
the value at an existing key, otherwise append the new binding at the end. -/
def setKey : PMap → String → List Body → PMap
  | [], a, v => [(a, v)]
  | (k, w) :: rest, a, v => if k = a then (k, v) :: rest else (k, w) :: setKey rest a v

/-- One inner scan of find_nullable for a single head with its bodies: mark
the head nullable when some body consists solely of already-nullable
symbols (an empty body qualifies vacuously). -/
def nullScan (h : String) (bs : List Body) (acc : List String) : List String :=
  bs.foldl (fun a b => if (∀ s ∈ b, s ∈ a) ∧ h ∉ a then a ++ [h] else a) acc

/-- One full pass of the find_nullable loop over all productions. -/
def nullStep (P : PMap) (acc : List String) : List String :=
  P.foldl (fun a e => nullScan e.1 e.2 a) acc

/-- The while-changed loop of find_nullable, with explicit fuel. -/
def nullIter (P : PMap) : Nat → List String → List String
  | 0, acc => acc
  | n + 1, acc =>
    let acc2 := nullStep P acc
    if acc2 = acc then acc else nullIter P n acc2

/-- find_nullable of kklab2.py: the set of nonterminals that can derive the
empty string, computed as a least fixed point.  The fuel bound is proved
sufficient below (the loop adds at least one head per productive pass). -/
def find_nullable (cfg : CFG) : List String :=
  nullIter cfg.P (cfg.P.length + 1) []

/-- The indices of the nullable-symbol occurrences of a body, in increasing
order, starting the count at i: the enumerate-and-filter of the source. -/
def nullPositions (nul : List String) : List String → Nat → List Nat
  | [], _ => []
  | s :: rest, i =>
    if s ∈ nul then i :: nullPositions nul rest (i + 1) else nullPositions nul rest (i + 1)

/-- The positions selected by the bits of a mask: bit j of the mask selects
the j-th listed position, exactly as the mask loop of the source marks the
symbol at positions j for deletion when bit j is set. -/
def maskSelect : List Nat → Nat → List Nat
  | [], _ => []
  | p :: ps, mask =>
    if mask % 2 = 1 then p :: maskSelect ps (mask / 2) else maskSelect ps (mask / 2)

/-- Drop from a body the symbols at the removed indices (counting from i),
keeping the remaining symbols in order: building the candidate body from
the deletion marks. -/
def dropIdxs : List String → Nat → List Nat → List String
  | [], _, _ => []
  | s :: rest, i, removed =>
    if i ∈ removed then dropIdxs rest (i + 1) removed
    else s :: dropIdxs rest (i + 1) removed

/-- The candidate body obtained from a body by deleting the nullable-position
subset selected by the mask. -/
def maskCandidate (nul : List String) (body : List String) (mask : Nat) : List String :=
  dropIdxs body 0 (maskSelect (nullPositions nul body 0) mask)

/-- Membership-checked insertion, modelling addition to the Python set of
tuples while fixing a deterministic first-seen order. -/
def addBody (acc : List Body) (b : Body) : List Body :=
  if b ∈ acc then acc else acc ++ [b]

/-- The inner mask loop of step 1 of remove_epsilon_rules for one body: add
every candidate that is nonempty or whose head is the start symbol. -/
def maskFold (S : String) (nul : List String) (h : String) (body : Body)
    (acc : List Body) : List Body :=
  (List.range (2 ^ (nullPositions nul body 0).length)).foldl (fun a mask =>
    if maskCandidate nul body mask ≠ [] ∨ h = S then addBody a (maskCandidate nul body mask)
    else a) acc

/-- The body set built for one head by step 1 of remove_epsilon_rules: for
every body, its mask candidates and then the original body itself. -/
def newBodiesBase (S : String) (nul : List String) (h : String) (bs : List Body) : List Body :=
  bs.foldl (fun acc body => addBody (maskFold S nul h body acc) body) []

/-- The per-head body set built by step 1 of remove_epsilon_rules: for every
body, every nullable-position deletion subset (kept when nonempty or when
the head is the start symbol) plus the original body itself; for a head
other than the start symbol, empty bodies are then discarded. -/
def newBodiesFor (S : String) (nul : List String) (h : String) (bs : List Body) : List Body :=
  if h ≠ S then (newBodiesBase S nul h bs).filter (fun b => b ≠ [])
  else newBodiesBase S nul h bs

/-- Whether the start symbol occurs in some production body of the rewritten
map: step 2 of remove_epsilon_rules. -/
def sInRHSb (P : PMap) (S : String) : Bool :=
  P.any (fun e => e.2.any (fun b => decide (S ∈ b)))

/-- Step 1 of remove_epsilon_rules: rewrite the body list of every head. -/
def epsP1 (cfg : CFG) : PMap :=
  cfg.P.map (fun e => (e.1, newBodiesFor cfg.S (find_nullable cfg) e.1 e.2))

/-- Steps 2 and 3 of remove_epsilon_rules: when the start symbol occurs on
some right-hand side, remove its epsilon body; otherwise, when the start
symbol is nullable and has no epsilon body yet, append one. -/
def epsP2 (cfg : CFG) : PMap :=
  if sInRHSb (epsP1 cfg) cfg.S then
    setKeyF (epsP1 cfg) cfg.S (fun bs => bs.erase [])
  else if cfg.S ∈ find_nullable cfg ∧ [] ∉ lookupD (epsP1 cfg) cfg.S then
    setKeyF (epsP1 cfg) cfg.S (fun bs => bs ++ [[]])
  else epsP1 cfg

/-- remove_epsilon_rules of kklab2.py. -/
def remove_epsilon_rules (cfg : CFG) : CFG :=
  ⟨cfg.N, cfg.Sigma, epsP2 cfg, cfg.S⟩

/-- The apostrophe character, written by code point. -/
def primeChar : Char := Char.ofNat 39

/-- The fresh primed name introduced for a directly left-recursive head. -/
def primeName (A : String) : String := A ++ String.singleton primeChar

/-- Keep the first occurrence of every element not already seen, dropping
the rest. -/
def dedupFirstAux : List String → List String → List String
  | [], _ => []
  | x :: xs, seen =>
    if x ∈ seen then dedupFirstAux xs seen else x :: dedupFirstAux xs (x :: seen)

/-- Keep the first occurrence of every element, dropping later duplicates:
the OrderedDict.fromkeys normalization of the nonterminal order. -/
def dedupFirst (l : List String) : List String := dedupFirstAux l []

/-- Insert into a duplicate-free list unless present, modelling addition to
the Python set of nonterminals while fixing a deterministic order. -/
def addSet (l : List String) (x : String) : List String :=
  if x ∈ l then l else l ++ [x]

/-- Expand one rule at its leading symbol: when the rule starts with B it is
replaced by one rule per finalized body of B (the body followed by the
remainder of the rule); otherwise the rule passes through unchanged. -/
def expandRule (betas : List Body) (B : String) (rule : Body) : List Body :=
  match rule with
  | [] => [[]]
  | s :: rest => if s = B then betas.map (fun beta => beta ++ rest) else [s :: rest]

/-- Rewrite every rule of the list at its leading symbol with respect to B. -/
def substLeading (betas : List Body) (B : String) (rules : List Body) : List Body :=
  rules.flatMap (expandRule betas B)

/-- The mutable state of the left-recursion loop: the new production map and
the growing nonterminal collection. -/
structure ElimState where
  newP : PMap
  newN : List String
deriving DecidableEq

/-- The rule list of one nonterminal after the substitution loop over the
already processed nonterminals, in order. -/
def elimCurrent (P0 : PMap) (st : ElimState) (processed : List String) (A : String) :
    List Body :=
  processed.foldl (fun rules B => substLeading (lookupD st.newP B) B rules) (lookupD P0 A)

/-- The directly left-recursive rules of the current rule list. -/
def elimAlpha (P0 : PMap) (st : ElimState) (processed : List String) (A : String) :
    List Body :=
  (elimCurrent P0 st processed A).filter (fun r => r.head? = some A)

/-- The rules of the current rule list that are not directly left-recursive. -/
def elimBeta (P0 : PMap) (st : ElimState) (processed : List String) (A : String) :
    List Body :=
  (elimCurrent P0 st processed A).filter (fun r => ¬ r.head? = some A)

/-- The body of the loop of eliminate_left_recursion for one nonterminal A:
substitute away leading occurrences of every earlier nonterminal in order,
split off the directly left-recursive rules, and when such rules exist
rewrite A with a fresh primed helper carrying a trailing epsilon body. -/
def elimStepA (P0 : PMap) (st : ElimState) (processed : List String) (A : String) : ElimState :=
  if elimAlpha P0 st processed A ≠ [] then
    { newP := setKey (setKey st.newP A
        ((elimBeta P0 st processed A).map (fun b => b ++ [primeName A])))
        (primeName A)
        ((elimAlpha P0 st processed A).map (fun a => a.tail ++ [primeName A]) ++ [[]]),
      newN := addSet st.newN (primeName A) }
  else
    { newP := setKey st.newP A (elimCurrent P0 st processed A), newN := st.newN }

/-- The loop of eliminate_left_recursion over the ordered nonterminals. -/
def elimLoop (P0 : PMap) : ElimState → List String → List String → ElimState
  | st, _, [] => st
  | st, processed, A :: rest => elimLoop P0 (elimStepA P0 st processed A) (processed ++ [A]) rest

/-- eliminate_left_recursion of kklab2.py.  The nonterminal collection the
driver of the repository passes is a Python set, so the add call on the
copied collection is set insertion; we model it with addSet.  The ordered
iteration list is the duplicate-free normalization of N. -/
def eliminate_left_recursion (cfg : CFG) : CFG :=
  let ordered := dedupFirst cfg.N
  let st0 : ElimState := ⟨ordered.map (fun nt => (nt, [])), cfg.N⟩
  let stF := elimLoop cfg.P st0 [] ordered
  ⟨stF.newN, cfg.Sigma, stF.newP, cfg.S⟩

/-- The loop of eliminate_left_recursion as executed when the nonterminal
collection has the list type the CFG constructor annotates: the attribute
access new_non_terminals.add fails on a list, so the first nonterminal with
a directly left-recursive rule aborts the call.  none models that raised
AttributeError. -/
def elimLoopStrict (P0 : PMap) : PMap → List String → List String → Option PMap
  | newP, _, [] => some newP
  | newP, processed, A :: rest =>
    let current := processed.foldl (fun rules B => substLeading (lookupD newP B) B rules)
      (lookupD P0 A)
    let alpha := current.filter (fun r => r.head? = some A)
    if alpha ≠ [] then none
    else elimLoopStrict P0 (setKey newP A current) (processed ++ [A]) rest

/-- eliminate_left_recursion on a grammar whose nonterminal collection is a
Python list as annotated: the result grammar, or none when the call raises. -/
def eliminate_left_recursion_listN (cfg : CFG) : Option CFG :=
  let ordered := dedupFirst cfg.N
  (elimLoopStrict cfg.P (ordered.map (fun nt => (nt, []))) [] ordered).map
    (fun P => ⟨cfg.N, cfg.Sigma, P, cfg.S⟩)

/-- The number of epsilon bodies in a body list. -/
def countEps : List Body → Nat
  | [] => 0
  | b :: bs => (if b = [] then 1 else 0) + countEps bs

/-- One rewrite step of the grammar: replace one occurrence of a head by one
of its bodies inside a sentential form. -/
def RewriteStep (P : PMap) (u v : List String) : Prop :=
  ∃ x A y bodies b, (A, bodies) ∈ P ∧ b ∈ bodies ∧ u = x ++ A :: y ∧ v = x ++ b ++ y

/-- Derivation in zero or more rewrite steps. -/
def Derives (P : PMap) (u v : List String) : Prop :=
  Relation.ReflTransGen (RewriteStep P) u v

/-- One substitution of the leading nonterminal of a sentential form by one
of its bodies. -/
def LStep (P : PMap) (u v : List String) : Prop :=
  ∃ B rest bodies bet, u = B :: rest ∧ (B, bodies) ∈ P ∧ bet ∈ bodies ∧ v = bet ++ rest

/-- Chains of leading-nonterminal substitutions. -/
def LChain (P : PMap) (u v : List String) : Prop :=
  Relation.ReflTransGen (LStep P) u v

/-- Well-formedness of a grammar per the data model: the nonterminal
collection is duplicate-free, the start symbol is a nonterminal, the
production map has one entry per nonterminal and no other entry, and its
keys are duplicate-free. -/
def WellFormed (G : CFG) : Prop :=
  G.N.Nodup ∧ G.S ∈ G.N ∧ (∀ A ∈ G.N, A ∈ G.P.map Prod.fst) ∧
    (∀ A ∈ G.P.map Prod.fst, A ∈ G.N) ∧ (G.P.map Prod.fst).Nodup

/-- Every symbol occurring in a production body is a terminal or a
nonterminal. -/
def SymbolsClosed (G : CFG) : Prop :=
  ∀ e ∈ G.P, ∀ b ∈ e.2, ∀ s ∈ b, s ∈ G.Sigma ∨ s ∈ G.N

/-- The grammar has no epsilon body. -/
def EpsFree (G : CFG) : Prop :=
  ∀ e ∈ G.P, ∀ b ∈ e.2, b ≠ ([] : Body)

/-- No production body is a single nonterminal. -/
def NoUnitNT (G : CFG) : Prop :=
  ∀ e ∈ G.P, ∀ b ∈ e.2, ∀ A ∈ G.N, b ≠ [A]

/-- Nonterminals and terminals are disjoint. -/
def NSigmaDisjoint (G : CFG) : Prop :=
  ∀ x ∈ G.N, x ∉ G.Sigma

/-- The primed names the algorithm may introduce are fresh: no primed form
of a nonterminal is already a nonterminal or a terminal. -/
def FreshPrimes (G : CFG) : Prop :=
  ∀ A ∈ G.N, primeName A ∉ G.N ∧ primeName A ∉ G.Sigma

/-- A string is the primed form of some nonterminal of the collection. -/
def IsPrimeOf (NN : List String) (s : String) : Prop :=
  ∃ A, A ∈ NN ∧ s = primeName A

instance (G : CFG) : Decidable (WellFormed G) := by
  unfold WellFormed
  infer_instance

instance (G : CFG) : Decidable (SymbolsClosed G) := by
  unfold SymbolsClosed
  infer_instance

instance (G : CFG) : Decidable (EpsFree G) := by
  unfold EpsFree
  infer_instance

instance (G : CFG) : Decidable (NoUnitNT G) := by
  unfold NoUnitNT
  infer_instance

instance (G : CFG) : Decidable (NSigmaDisjoint G) := by
  unfold NSigmaDisjoint
  infer_instance

instance (G : CFG) : Decidable (FreshPrimes G) := by
  unfold FreshPrimes
  infer_instance

instance (NN : List String) (s : String) : Decidable (IsPrimeOf NN s) := by
  unfold IsPrimeOf
  infer_instance

/-- The part of a list strictly after the first occurrence of an element. -/
def afterFirst : List String → String → List String
  | [], _ => []
  | x :: xs, a => if x = a then xs else afterFirst xs a

/-- Invariant of the entries of the new production map during the
left-recursion loop, for reasoning about epsilon bodies: every entry has at
most one epsilon body; an epsilon body occurs only at the start symbol or
at an introduced primed name; when the start symbol is a nonterminal whose
input entry has an epsilon body, no body mentions the start symbol; and
when the start symbol is a nonterminal whose input entry has no epsilon
body, entries keyed by the start symbol have no epsilon body. -/
def EpsInvEntry (P0 : PMap) (S : String) (NN : List String)
    (e : String × List Body) : Prop :=
  countEps e.2 ≤ 1 ∧
  ([] ∈ e.2 → e.1 = S ∨ IsPrimeOf NN e.1) ∧
  ((S ∈ NN ∧ [] ∈ lookupD P0 S) → ∀ b ∈ e.2, S ∉ b) ∧
  ([] ∉ lookupD P0 S → S ∈ NN → e.1 = S → [] ∉ e.2)

/-- The corresponding invariant of the rule list of the nonterminal
currently being processed by the left-recursion loop. -/
def EpsInvRules (P0 : PMap) (S : String) (NN : List String) (A : String)
    (rules : List Body) : Prop :=
  countEps rules ≤ 1 ∧
  ([] ∈ rules → A = S) ∧
  ((S ∈ NN ∧ [] ∈ lookupD P0 S) → ∀ b ∈ rules, S ∉ b) ∧
  ([] ∉ lookupD P0 S → S ∈ NN → A = S → [] ∉ rules)

/-- Shape of the nonempty bodies of an introduced primed nonterminal: the
leading symbol is a terminal or an original nonterminal. -/
def PrimeBody (G : CFG) (b : Body) : Prop :=
  ∃ s t, b = s :: t ∧ (s ∈ G.Sigma ∨ s ∈ G.N)

/-- Invariant of the rule bodies handled by the left-recursion loop: the
body is nonempty, its leading symbol is a terminal or one of the still
allowed nonterminals, every symbol is a terminal, a nonterminal or an
introduced primed name, and a body led by a nonterminal has a second symbol
that is a terminal or a nonterminal (in particular it is not a bare
nonterminal and its second symbol is never a primed name). -/
def BodyInv (G : CFG) (allowed : List String) (b : Body) : Prop :=
  ∃ s t, b = s :: t ∧ (s ∈ G.Sigma ∨ s ∈ allowed) ∧
    (∀ x ∈ b, x ∈ G.Sigma ∨ x ∈ G.N ∨ IsPrimeOf G.N x) ∧
    (s ∈ G.N → ∃ y u, t = y :: u ∧ (y ∈ G.Sigma ∨ y ∈ G.N))

/-- Invariant of the entries of the new production map during the
left-recursion loop, for reasoning about leading symbols: every key is an
ordered nonterminal or an introduced primed name; a processed original
entry has bodies satisfying BodyInv with the nonterminals after it in the
order as allowed heads; an unprocessed original entry is still empty; and
the bodies of a primed entry are empty or led by a terminal or an original
nonterminal. -/
def LRInvEntry (G : CFG) (processed remaining : List String)
    (e : String × List Body) : Prop :=
  (e.1 ∈ dedupFirst G.N ∨ IsPrimeOf G.N e.1) ∧
  (e.1 ∈ processed → ∀ b ∈ e.2, BodyInv G (afterFirst (dedupFirst G.N) e.1) b) ∧
  (e.1 ∈ remaining → e.2 = []) ∧
  (IsPrimeOf G.N e.1 → ∀ b ∈ e.2, b = [] ∨ PrimeBody G b)

/-- Grammar with one directly left-recursive nonterminal: A to A a or b. -/
def gDirect : CFG :=
  ⟨["A"], ["a", "b"], [("A", [["A", "a"], ["b"]])], "A"⟩

/-- Epsilon-free grammar with a self-unit rule: A to A or b. -/
def gSelfUnit : CFG :=
  ⟨["A"], ["b"], [("A", [["A"], ["b"]])], "A"⟩

/-- Epsilon-free grammar with indirect left recursion through two
nonterminals: A to B a or a, B to A b or b. -/
def gIndirect : CFG :=
  ⟨["A", "B"], ["a", "b"],
    [("A", [["B", "a"], ["a"]]), ("B", [["A", "b"], ["b"]])], "A"⟩

/-- The demonstration grammar of the repository driver, with the nonterminal
collection in a fixed order: E to E + T or T or epsilon, T to T * F or F,
F to ( E ) or id. -/
def gDemo : CFG :=
  ⟨["E", "T", "F"], ["+", "*", "(", ")", "id"],
    [("E", [["E", "+", "T"], ["T"], []]),
     ("T", [["T", "*", "F"], ["F"]]),
     ("F", [["(", "E", ")"], ["id"]])], "E"⟩

/-! Infrastructure lemmas on the dict and set primitives. -/

theorem append_eq_self_nil {α : Type} {acc t : List α} (h : acc ++ t = acc) : t = [] := by
  have hl := congrArg List.length h
  simp only [List.length_append] at hl
  exact List.length_eq_zero.mp (by omega)

theorem lookupD_cases (P : PMap) (a : String) :
    lookupD P a = [] ∨ (a, lookupD P a) ∈ P := by
  induction P with
  | nil => exact Or.inl rfl
  | cons e rest ih =>
    obtain ⟨k, v⟩ := e
    by_cases h : k = a
    · subst h
      simp [lookupD]
    · rcases ih with h2 | h2
      · exact Or.inl (by simpa [lookupD, h] using h2)
      · refine Or.inr ?_
        simp only [lookupD, h, if_false]
        exact List.mem_cons_of_mem _ h2

theorem mem_setKeyF {P : PMap} {a : String} {f : List Body → List Body}
    {e : String × List Body} :
    e ∈ setKeyF P a f →
      e ∈ P ∨ (a ∈ P.map Prod.fst ∧ e = (a, f (lookupD P a))) := by
  induction P with
  | nil => intro h; simp [setKeyF] at h
  | cons p rest ih =>
    intro h
    obtain ⟨k, v⟩ := p
    by_cases hk : k = a
    · subst hk
      simp only [setKeyF, if_true, eq_self_iff_true, List.mem_cons] at h
      rcases h with h | h
      · exact Or.inr ⟨by simp, by simp [lookupD, h]⟩
      · exact Or.inl (List.mem_cons_of_mem _ h)
    · simp only [setKeyF, if_neg hk, List.mem_cons] at h
      rcases h with h | h
      · exact Or.inl (by simp [h])
      · rcases ih h with h2 | ⟨hm, he⟩
        · exact Or.inl (List.mem_cons_of_mem _ h2)
        · refine Or.inr ⟨by simp [hm], ?_⟩
          rw [he]
          simp [lookupD, hk]

theorem setKeyF_keys (P : PMap) (a : String) (f : List Body → List Body) :
    (setKeyF P a f).map Prod.fst = P.map Prod.fst := by
  induction P with
  | nil => rfl
  | cons p rest ih =>
    obtain ⟨k, v⟩ := p
    by_cases hk : k = a
    · simp [setKeyF, hk]
    · simp [setKeyF, hk, ih]

theorem lookupD_setKeyF_self {P : PMap} {a : String} (f : List Body → List Body)
    (h : a ∈ P.map Prod.fst) : lookupD (setKeyF P a f) a = f (lookupD P a) := by
  induction P with
  | nil => simp at h
  | cons p rest ih =>
    obtain ⟨k, v⟩ := p
    by_cases hk : k = a
    · subst hk
      simp [setKeyF, lookupD]
    · simp only [List.map_cons, List.mem_cons] at h
      rcases h with h | h
      · exact absurd h.symm hk
      · simp [setKeyF, hk, lookupD, ih h]

theorem setKeyF_not_mem {P : PMap} {a : String} (f : List Body → List Body)
    (h : a ∉ P.map Prod.fst) : setKeyF P a f = P := by
  induction P with
  | nil => rfl
  | cons p rest ih =>
    obtain ⟨k, v⟩ := p
    simp only [List.map_cons, List.mem_cons, not_or] at h
    simp [setKeyF, Ne.symm h.1, ih h.2]

theorem mem_setKey {P : PMap} {a : String} {v : List Body}
    {e : String × List Body} : e ∈ setKey P a v → e ∈ P ∨ e = (a, v) := by
  induction P with
  | nil => intro h; simpa [setKey] using h
  | cons p rest ih =>
    intro h
    obtain ⟨k, w⟩ := p
    by_cases hk : k = a
    · subst hk
      simp only [setKey, if_true, eq_self_iff_true, List.mem_cons] at h
      rcases h with h | h
      · exact Or.inr h
      · exact Or.inl (List.mem_cons_of_mem _ h)
    · simp only [setKey, if_neg hk, List.mem_cons] at h
      rcases h with h | h
      · exact Or.inl (by simp [h])
      · rcases ih h with h2 | h2
        · exact Or.inl (List.mem_cons_of_mem _ h2)
        · exact Or.inr h2

theorem lookupD_setKey_self (P : PMap) (a : String) (v : List Body) :
    lookupD (setKey P a v) a = v := by
  induction P with
  | nil => simp [setKey, lookupD]
  | cons p rest ih =>
    obtain ⟨k, w⟩ := p
    by_cases hk : k = a
    · subst hk
      simp [setKey, lookupD]
    · simp [setKey, hk, lookupD, ih]

theorem lookupD_setKey_ne (P : PMap) {a b : String} (v : List Body) (h : b ≠ a) :
    lookupD (setKey P a v) b = lookupD P b := by
  induction P with
  | nil => simp [setKey, lookupD, Ne.symm h]
  | cons p rest ih =>
    obtain ⟨k, w⟩ := p
    by_cases hk : k = a
    · subst hk
      simp [setKey, lookupD, Ne.symm h]
    · by_cases hkb : k = b
      · subst hkb
        simp [setKey, hk, lookupD]
      · simp [setKey, hk, lookupD, hkb, ih]

theorem lookupD_eq_nil_of_not_mem {P : PMap} {a : String}
    (h : a ∉ P.map Prod.fst) : lookupD P a = [] := by
  induction P with
  | nil => rfl
  | cons p rest ih =>
    obtain ⟨k, v⟩ := p
    simp only [List.map_cons, List.mem_cons, not_or] at h
    simp [lookupD, Ne.symm h.1, ih h.2]

theorem lookupD_mem_of_mem_keys {P : PMap} {a : String}
    (h : a ∈ P.map Prod.fst) : (a, lookupD P a) ∈ P := by
  induction P with
  | nil => simp at h
  | cons p rest ih =>
    obtain ⟨k, v⟩ := p
    by_cases hk : k = a
    · subst hk
      simp [lookupD]
    · simp only [List.map_cons, List.mem_cons] at h
      rcases h with h | h
      · exact absurd h.symm hk
      · simp only [lookupD, if_neg hk]
        exact List.mem_cons_of_mem _ (ih h)

theorem lookupD_of_mem_nodup {P : PMap} {e : String × List Body}
    (hn : (P.map Prod.fst).Nodup) (he : e ∈ P) : lookupD P e.1 = e.2 := by
  induction P with
  | nil => simp at he
  | cons p rest ih =>
    obtain ⟨k, v⟩ := p
    rcases List.mem_cons.mp he with he | he
    · simp [he, lookupD]
    · have hk : k ≠ e.1 := by
        intro hke
        have : e.1 ∈ rest.map Prod.fst := List.mem_map.mpr ⟨e, he, rfl⟩
        rw [List.map_cons, List.nodup_cons] at hn
        exact hn.1 (hke ▸ this)
      simp only [lookupD, if_neg hk]
      exact ih (by rw [List.map_cons, List.nodup_cons] at hn; exact hn.2) he

theorem mem_addBody {acc : List Body} {b x : Body} (h : x ∈ addBody acc b) :
    x ∈ acc ∨ x = b := by
  unfold addBody at h
  split at h
  · exact Or.inl h
  · rcases List.mem_append.mp h with h2 | h2
    · exact Or.inl h2
    · exact Or.inr (List.mem_singleton.mp h2)

theorem self_mem_addBody (acc : List Body) (b : Body) : b ∈ addBody acc b := by
  unfold addBody
  split
  · assumption
  · simp

theorem addBody_sub (acc : List Body) (b : Body) : acc ⊆ addBody acc b := by
  unfold addBody
  split
  · exact fun _ h => h
  · exact fun _ h => List.mem_append_left _ h

theorem nodup_addBody {acc : List Body} (b : Body) (h : acc.Nodup) :
    (addBody acc b).Nodup := by
  unfold addBody
  split
  · exact h
  · simpa [List.nodup_append, h] using (by assumption : b ∉ acc)

theorem mem_addSet {l : List String} {x y : String} (h : y ∈ addSet l x) :
    y ∈ l ∨ y = x := by
  unfold addSet at h
  split at h
  · exact Or.inl h
  · rcases List.mem_append.mp h with h2 | h2
    · exact Or.inl h2
    · exact Or.inr (List.mem_singleton.mp h2)

theorem addSet_sub (l : List String) (x : String) : l ⊆ addSet l x := by
  unfold addSet
  split
  · exact fun _ h => h
  · exact fun _ h => List.mem_append_left _ h

theorem addSet_length (l : List String) (x : String) :
    (addSet l x).length ≤ l.length + 1 := by
  unfold addSet
  split
  · omega
  · simp

theorem mem_dedupFirstAux (l : List String) :
    ∀ (seen : List String) (x : String),
      x ∈ dedupFirstAux l seen ↔ x ∈ l ∧ x ∉ seen := by
  induction l with
  | nil => intro seen x; simp [dedupFirstAux]
  | cons y ys ih =>
    intro seen x
    unfold dedupFirstAux
    by_cases hy : y ∈ seen
    · rw [if_pos hy, ih]
      constructor
      · intro ⟨h1, h2⟩
        exact ⟨List.mem_cons_of_mem _ h1, h2⟩
      · intro ⟨h1, h2⟩
        rcases List.mem_cons.mp h1 with h3 | h3
        · exact absurd (h3 ▸ hy) h2
        · exact ⟨h3, h2⟩
    · rw [if_neg hy]
      by_cases hxy : x = y
      · subst hxy
        constructor
        · intro _
          exact ⟨List.mem_cons_self _ _, hy⟩
        · intro _
          exact List.mem_cons_self _ _
      · constructor
        · intro h
          rcases List.mem_cons.mp h with h2 | h2
          · exact absurd h2 hxy
          · obtain ⟨h3, h4⟩ := (ih _ _).mp h2
            refine ⟨List.mem_cons_of_mem _ h3, ?_⟩
            intro h5
            exact h4 (List.mem_cons_of_mem _ h5)
        · intro ⟨h1, h2⟩
          rcases List.mem_cons.mp h1 with h3 | h3
          · exact absurd h3 hxy
          · refine List.mem_cons_of_mem _ ((ih _ _).mpr ⟨h3, ?_⟩)
            intro h4
            rcases List.mem_cons.mp h4 with h5 | h5
            · exact hxy h5
            · exact h2 h5

theorem mem_dedupFirst (l : List String) (x : String) :
    x ∈ dedupFirst l ↔ x ∈ l := by
  unfold dedupFirst
  rw [mem_dedupFirstAux]
  simp

theorem nodup_dedupFirstAux (l : List String) :
    ∀ seen : List String, (dedupFirstAux l seen).Nodup := by
  induction l with
  | nil => intro seen; simp [dedupFirstAux]
  | cons y ys ih =>
    intro seen
    unfold dedupFirstAux
    by_cases hy : y ∈ seen
    · rw [if_pos hy]
      exact ih seen
    · rw [if_neg hy]
      refine List.nodup_cons.mpr ⟨?_, ih _⟩
      intro hmem
      have := (mem_dedupFirstAux _ _ _).mp hmem
      exact this.2 (List.mem_cons_self _ _)

theorem nodup_dedupFirst (l : List String) : (dedupFirst l).Nodup :=
  nodup_dedupFirstAux l []

theorem afterFirst_subset (l : List String) (a : String) : afterFirst l a ⊆ l := by
  induction l with
  | nil => simp [afterFirst]
  | cons x xs ih =>
    unfold afterFirst
    split
    · exact List.subset_cons_self _ _
    · exact ih.trans (List.subset_cons_self _ _)

theorem not_mem_afterFirst_self {l : List String} (a : String) (h : l.Nodup) :
    a ∉ afterFirst l a := by
  induction l with
  | nil => simp [afterFirst]
  | cons x xs ih =>
    unfold afterFirst
    rcases List.nodup_cons.mp h with ⟨hx, hxs⟩
    split
    · rename_i heq
      subst heq
      exact hx
    · exact ih hxs

theorem afterFirst_append {p r : List String} {a : String} (h : a ∉ p) :
    afterFirst (p ++ a :: r) a = r := by
  induction p with
  | nil => simp [afterFirst]
  | cons x xs ih =>
    simp only [List.mem_cons, not_or] at h
    simp only [List.cons_append, afterFirst, Ne.symm h.1, if_neg]
    exact ih h.2

theorem afterFirst_trans {l : List String} {x y : String} (h : l.Nodup)
    (hy : y ∈ afterFirst l x) : afterFirst l y ⊆ afterFirst l x := by
  induction l with
  | nil => simp [afterFirst] at hy
  | cons z zs ih =>
    rcases List.nodup_cons.mp h with ⟨hz, hzs⟩
    by_cases hzx : z = x
    · subst hzx
      simp only [afterFirst, if_pos rfl] at hy ⊢
      have hzy : z ≠ y := fun he => hz (he ▸ hy)
      simp only [afterFirst, if_neg hzy]
      exact afterFirst_subset _ _
    · simp only [afterFirst, if_neg hzx] at hy ⊢
      have hzy : z ≠ y := fun he => hz (he ▸ (afterFirst_subset _ _ hy))
      simp only [afterFirst, if_neg hzy]
      exact ih hzs hy

/-! Derivation lemmas. -/

theorem rewriteStep_append_left {P : PMap} {u v : List String} (w : List String)
    (h : RewriteStep P u v) : RewriteStep P (w ++ u) (w ++ v) := by
  obtain ⟨x, A, y, bodies, b, h1, h2, hu, hv⟩ := h
  exact ⟨w ++ x, A, y, bodies, b, h1, h2, by simp [hu], by simp [hv]⟩

theorem rewriteStep_append_right {P : PMap} {u v : List String} (w : List String)
    (h : RewriteStep P u v) : RewriteStep P (u ++ w) (v ++ w) := by
  obtain ⟨x, A, y, bodies, b, h1, h2, hu, hv⟩ := h
  exact ⟨x, A, y ++ w, bodies, b, h1, h2, by simp [hu], by simp [hv]⟩

theorem derives_append_right {P : PMap} {u v : List String} (w : List String)
    (h : Derives P u v) : Derives P (u ++ w) (v ++ w) :=
  Relation.ReflTransGen.lift (fun l => l ++ w) (fun _ _ hr => rewriteStep_append_right w hr) h

theorem derives_nil_of_parts {P : PMap} {u v : List String}
    (hu : Derives P u []) (hv : Derives P v []) : Derives P (u ++ v) [] := by
  have h1 : Derives P (u ++ v) ([] ++ v) := derives_append_right v hu
  simp only [List.nil_append] at h1
  exact h1.trans hv

theorem derives_nil_all {P : PMap} {b : List String}
    (h : ∀ s ∈ b, Derives P [s] []) : Derives P b [] := by
  induction b with
  | nil => exact Relation.ReflTransGen.refl
  | cons s rest ih =>
    have h2 : Derives P ([s] ++ rest) [] :=
      derives_nil_of_parts (h s (List.mem_cons_self _ _))
        (ih fun x hx => h x (List.mem_cons_of_mem _ hx))
    simpa using h2

theorem head_rewrite {P : PMap} {A : String} {bodies : List Body} {b : Body}
    (h1 : (A, bodies) ∈ P) (h2 : b ∈ bodies) : RewriteStep P [A] b :=
  ⟨[], A, [], bodies, b, h1, h2, rfl, by simp⟩

/-! Lemmas on the nullability analyzer. -/

theorem nullScan_nil (h : String) (acc : List String) : nullScan h [] acc = acc := rfl

theorem nullScan_cons (h : String) (b : Body) (bs : List Body) (acc : List String) :
    nullScan h (b :: bs) acc =
      nullScan h bs (if (∀ s ∈ b, s ∈ acc) ∧ h ∉ acc then acc ++ [h] else acc) := rfl

theorem nullScan_extend (h : String) (bs : List Body) (acc : List String) :
    ∃ t, nullScan h bs acc = acc ++ t ∧ ∀ x ∈ t, x = h := by
  induction bs generalizing acc with
  | nil => exact ⟨[], by simp [nullScan_nil], by simp⟩
  | cons b bs ih =>
    rw [nullScan_cons]
    split
    · obtain ⟨t, ht, hall⟩ := ih (acc ++ [h])
      refine ⟨h :: t, ?_, ?_⟩
      · rw [ht]
        simp
      · intro x hx
        rcases List.mem_cons.mp hx with hx | hx
        · exact hx
        · exact hall x hx
    · exact ih acc

theorem nullScan_sub (h : String) (bs : List Body) (acc : List String) :
    acc ⊆ nullScan h bs acc := by
  obtain ⟨t, ht, -⟩ := nullScan_extend h bs acc
  rw [ht]
  exact List.subset_append_left _ _

theorem nullScan_nodup (h : String) (bs : List Body) {acc : List String}
    (hn : acc.Nodup) : (nullScan h bs acc).Nodup := by
  induction bs generalizing acc with
  | nil => exact hn
  | cons b bs ih =>
    rw [nullScan_cons]
    split
    · rename_i hcond
      exact ih (by simp [List.nodup_append, hn, hcond.2])
    · exact ih hn

theorem nullScan_qualify (h : String) {bs : List Body} {acc : List String} {b : Body}
    (hb : b ∈ bs) (hall : ∀ s ∈ b, s ∈ acc) : h ∈ nullScan h bs acc := by
  induction bs generalizing acc with
  | nil => simp at hb
  | cons b0 bs ih =>
    rw [nullScan_cons]
    rcases List.mem_cons.mp hb with hb0 | hbs
    · subst hb0
      apply nullScan_sub
      split
      · simp
      · rename_i hcond
        rw [not_and_or, not_not] at hcond
        rcases hcond with hcond | hcond
        · exact absurd hall hcond
        · exact hcond
    · apply ih hbs
      intro s hs
      split
      · exact List.mem_append_left _ (hall s hs)
      · exact hall s hs

theorem nullScan_sound {P : PMap} {hd : String} {bs0 : List Body} (bs : List Body)
    {acc : List String} (hmem : (hd, bs0) ∈ P) (hsub : ∀ b ∈ bs, b ∈ bs0)
    (hacc : ∀ x ∈ acc, Derives P [x] []) :
    ∀ x ∈ nullScan hd bs acc, Derives P [x] [] := by
  induction bs generalizing acc with
  | nil => exact hacc
  | cons b bs ih =>
    rw [nullScan_cons]
    apply ih (fun b2 hb2 => hsub b2 (List.mem_cons_of_mem _ hb2))
    split
    · rename_i hcond
      intro x hx
      rcases List.mem_append.mp hx with hx | hx
      · exact hacc x hx
      · have hxh : x = hd := by simpa using hx
        subst hxh
        refine Relation.ReflTransGen.head
          (head_rewrite hmem (hsub b (List.mem_cons_self _ _))) ?_
        exact derives_nil_all (fun s hs => hacc s (hcond.1 s hs))
    · exact hacc

theorem nullStep_nil (acc : List String) : nullStep [] acc = acc := rfl

theorem nullStep_cons (e : String × List Body) (P : PMap) (acc : List String) :
    nullStep (e :: P) acc = nullStep P (nullScan e.1 e.2 acc) := rfl

theorem nullStep_extend (P : PMap) (acc : List String) :
    ∃ t, nullStep P acc = acc ++ t ∧ ∀ x ∈ t, x ∈ P.map Prod.fst := by
  induction P generalizing acc with
  | nil => exact ⟨[], by simp [nullStep_nil], by simp⟩
  | cons e P ih =>
    rw [nullStep_cons]
    obtain ⟨t1, ht1, h1⟩ := nullScan_extend e.1 e.2 acc
    obtain ⟨t2, ht2, h2⟩ := ih (nullScan e.1 e.2 acc)
    refine ⟨t1 ++ t2, ?_, ?_⟩
    · rw [ht2, ht1, List.append_assoc]
    · intro x hx
      rcases List.mem_append.mp hx with hx | hx
      · simp [h1 x hx]
      · exact List.mem_cons_of_mem _ (h2 x hx)

theorem nullStep_sub (P : PMap) (acc : List String) : acc ⊆ nullStep P acc := by
  obtain ⟨t, ht, -⟩ := nullStep_extend P acc
  rw [ht]
  exact List.subset_append_left _ _

theorem nullStep_nodup (P : PMap) {acc : List String} (hn : acc.Nodup) :
    (nullStep P acc).Nodup := by
  induction P generalizing acc with
  | nil => exact hn
  | cons e P ih => exact ih (nullScan_nodup e.1 e.2 hn)

theorem nullStep_sound {P0 P : PMap} (hP : ∀ e ∈ P, e ∈ P0) {acc : List String}
    (hacc : ∀ x ∈ acc, Derives P0 [x] []) :
    ∀ x ∈ nullStep P acc, Derives P0 [x] [] := by
  induction P generalizing acc with
  | nil => exact hacc
  | cons e P ih =>
    rw [nullStep_cons]
    apply ih (fun e2 he2 => hP e2 (List.mem_cons_of_mem _ he2))
    have hmem : (e.1, e.2) ∈ P0 := by
      have := hP e (List.mem_cons_self _ _)
      simpa using this
    exact nullScan_sound e.2 hmem (fun b hb => hb) hacc

theorem nullStep_qualify {P : PMap} {acc : List String} {e : String × List Body}
    (he : e ∈ P) {b : Body} (hb : b ∈ e.2) (hall : ∀ s ∈ b, s ∈ acc) :
    e.1 ∈ nullStep P acc := by
  induction P generalizing acc with
  | nil => simp at he
  | cons e2 P ih =>
    rw [nullStep_cons]
    rcases List.mem_cons.mp he with he2 | heP
    · subst he2
      exact nullStep_sub P _ (nullScan_qualify e.1 hb hall)
    · exact ih heP (fun s hs => nullScan_sub e2.1 e2.2 acc (hall s hs))

theorem nullIter_succ (P : PMap) (n : Nat) (acc : List String) :
    nullIter P (n + 1) acc =
      if nullStep P acc = acc then acc else nullIter P n (nullStep P acc) := rfl

theorem nullIter_extend (P : PMap) (n : Nat) (acc : List String) :
    ∃ t, nullIter P n acc = acc ++ t ∧ ∀ x ∈ t, x ∈ P.map Prod.fst := by
  induction n generalizing acc with
  | zero => exact ⟨[], by simp [nullIter], by simp⟩
  | succ n ih =>
    rw [nullIter_succ]
    split
    · exact ⟨[], by simp, by simp⟩
    · obtain ⟨t1, ht1, h1⟩ := nullStep_extend P acc
      obtain ⟨t2, ht2, h2⟩ := ih (nullStep P acc)
      refine ⟨t1 ++ t2, ?_, ?_⟩
      · rw [ht2, ht1, List.append_assoc]
      · intro x hx
        rcases List.mem_append.mp hx with hx | hx
        · exact h1 x hx
        · exact h2 x hx

theorem nullIter_nodup (P : PMap) (n : Nat) {acc : List String} (hn : acc.Nodup) :
    (nullIter P n acc).Nodup := by
  induction n generalizing acc with
  | zero => exact hn
  | succ n ih =>
    rw [nullIter_succ]
    split
    · exact hn
    · exact ih (nullStep_nodup P hn)

theorem nullIter_sound {P : PMap} (n : Nat) {acc : List String}
    (hacc : ∀ x ∈ acc, Derives P [x] []) :
    ∀ x ∈ nullIter P n acc, Derives P [x] [] := by
  induction n generalizing acc with
  | zero => exact hacc
  | succ n ih =>
    rw [nullIter_succ]
    split
    · exact hacc
    · exact ih (nullStep_sound (fun e he => he) hacc)

theorem nullIter_stable {P : PMap} {acc : List String}
    (h : nullStep P acc = acc) (n : Nat) : nullIter P n acc = acc := by
  induction n with
  | zero => rfl
  | succ n _ => rw [nullIter_succ, if_pos h]

theorem nullIter_progress (P : PMap) (n : Nat) (acc : List String) :
    nullStep P (nullIter P n acc) = nullIter P n acc ∨
      acc.length + n ≤ (nullIter P n acc).length := by
  induction n generalizing acc with
  | zero => right; simp [nullIter]
  | succ n ih =>
    rw [nullIter_succ]
    by_cases hst : nullStep P acc = acc
    · rw [if_pos hst]
      exact Or.inl hst
    · rw [if_neg hst]
      rcases ih (nullStep P acc) with h | h
      · exact Or.inl h
      · right
        obtain ⟨t, ht, -⟩ := nullStep_extend P acc
        have htne : t ≠ [] := by
          intro hte
          exact hst (by simp [ht, hte])
        have : (nullStep P acc).length ≥ acc.length + 1 := by
          rw [ht, List.length_append]
          have := List.length_pos.mpr htne
          omega
        omega

theorem find_nullable_fix (G : CFG) :
    nullStep G.P (find_nullable G) = find_nullable G := by
  rcases nullIter_progress G.P (G.P.length + 1) [] with h | h
  · exact h
  · exfalso
    have hnd : (nullIter G.P (G.P.length + 1) []).Nodup :=
      nullIter_nodup G.P _ List.nodup_nil
    obtain ⟨t, ht, hall⟩ := nullIter_extend G.P (G.P.length + 1) []
    have hsub : ∀ x ∈ nullIter G.P (G.P.length + 1) [], x ∈ G.P.map Prod.fst := by
      intro x hx
      rw [ht] at hx
      exact hall x (by simpa using hx)
    have h1 : (nullIter G.P (G.P.length + 1) []).toFinset.card =
        (nullIter G.P (G.P.length + 1) []).length :=
      List.toFinset_card_of_nodup hnd
    have h2 : (nullIter G.P (G.P.length + 1) []).toFinset ⊆
        (G.P.map Prod.fst).toFinset := by
      intro x hx
      exact List.mem_toFinset.mpr (hsub x (List.mem_toFinset.mp hx))
    have h3 := Finset.card_le_card h2
    have h4 := List.toFinset_card_le (G.P.map Prod.fst)
    have h5 : (G.P.map Prod.fst).length = G.P.length := List.length_map _ _
    simp only [List.length_nil] at h
    omega

theorem nullIter_fuel_add (P : PMap) :
    ∀ (n m : Nat) (acc : List String),
      nullStep P (nullIter P n acc) = nullIter P n acc →
      nullIter P (n + m) acc = nullIter P n acc := by
  intro n
  induction n with
  | zero =>
    intro m acc hst
    simpa using nullIter_stable hst m
  | succ n ih =>
    intro m acc hst
    have heq : n + 1 + m = (n + m) + 1 := by omega
    rw [heq, nullIter_succ, nullIter_succ]
    by_cases h0 : nullStep P acc = acc
    · rw [if_pos h0, if_pos h0]
    · rw [if_neg h0, if_neg h0]
      apply ih m (nullStep P acc)
      rw [nullIter_succ, if_neg h0] at hst
      exact hst

theorem find_nullable_sound (G : CFG) :
    ∀ x ∈ find_nullable G, Derives G.P [x] [] :=
  nullIter_sound _ (by simp)

theorem find_nullable_closed (G : CFG) :
    ∀ e ∈ G.P, ∀ b ∈ e.2, (∀ s ∈ b, s ∈ find_nullable G) → e.1 ∈ find_nullable G := by
  intro e he b hb hall
  have h := nullStep_qualify he hb hall
  rwa [find_nullable_fix] at h

theorem derives_nil_mem (G : CFG) :
    ∀ w, Derives G.P w [] → ∀ s ∈ w, s ∈ find_nullable G := by
  intro w hw
  induction hw using Relation.ReflTransGen.head_induction_on with
  | refl => intro s hs; simp at hs
  | head hstep _ ih =>
    intro s hs
    obtain ⟨x, A, y, bodies, b, h1, h2, hu, hv⟩ := hstep
    subst hu
    subst hv
    rcases List.mem_append.mp hs with hx | hAy
    · exact ih s (List.mem_append_left _ (List.mem_append_left _ hx))
    · rcases List.mem_cons.mp hAy with hA | hy
      · subst hA
        apply find_nullable_closed G (s, bodies) h1 b h2
        intro sb hsb
        exact ih sb (List.mem_append_left _ (List.mem_append_right _ hsb))
      · exact ih s (List.mem_append_right _ hy)

theorem nullable_iff (G : CFG) (A : String) :
    A ∈ find_nullable G ↔ Derives G.P [A] [] :=
  ⟨fun h => find_nullable_sound G A h,
   fun h => derives_nil_mem G [A] h A (List.mem_singleton_self _)⟩

/-! Lemmas on the candidate bodies of the epsilon eliminator. -/

theorem nullPositions_cons (nul : List String) (s : String) (rest : List String) (i : Nat) :
    nullPositions nul (s :: rest) i =
      if s ∈ nul then i :: nullPositions nul rest (i + 1)
      else nullPositions nul rest (i + 1) := rfl

theorem mem_dropIdxs {body : List String} {x : String} :
    ∀ {i : Nat} {removed : List Nat}, x ∈ dropIdxs body i removed → x ∈ body := by
  induction body with
  | nil => intro i removed h; simp [dropIdxs] at h
  | cons s rest ih =>
    intro i removed h
    unfold dropIdxs at h
    split at h
    · exact List.mem_cons_of_mem _ (ih h)
    · rcases List.mem_cons.mp h with h | h
      · exact h ▸ List.mem_cons_self _ _
      · exact List.mem_cons_of_mem _ (ih h)

theorem maskSelect_subset (ps : List Nat) (mask : Nat) : maskSelect ps mask ⊆ ps := by
  induction ps generalizing mask with
  | nil => simp [maskSelect]
  | cons p ps ih =>
    unfold maskSelect
    split
    · exact List.cons_subset_cons _ (ih (mask / 2)) |>.trans (by simp)
    · exact (ih (mask / 2)).trans (List.subset_cons_self _ _)

theorem maskSelect_all (ps : List Nat) : maskSelect ps (2 ^ ps.length - 1) = ps := by
  induction ps with
  | nil => rfl
  | cons p ps ih =>
    have hpow : 2 ^ (p :: ps).length = 2 * 2 ^ ps.length := by
      simp [List.length_cons, pow_succ]
      ring
    have hpos : 1 ≤ 2 ^ ps.length := Nat.one_le_two_pow
    unfold maskSelect
    have h1 : (2 ^ (p :: ps).length - 1) % 2 = 1 := by
      rw [hpow]
      omega
    have h2 : (2 ^ (p :: ps).length - 1) / 2 = 2 ^ ps.length - 1 := by
      rw [hpow]
      omega
    rw [if_pos h1, h2, ih]

theorem nullPositions_ge {nul : List String} {body : List String} :
    ∀ {i j : Nat}, j ∈ nullPositions nul body i → i ≤ j := by
  induction body with
  | nil => intro i j h; simp [nullPositions] at h
  | cons s rest ih =>
    intro i j h
    unfold nullPositions at h
    split at h
    · rcases List.mem_cons.mp h with h | h
      · omega
      · have := ih h
        omega
    · have := ih h
      omega

theorem dropIdxs_nil_of_all {nul : List String} {body : List String} :
    ∀ {i : Nat} {removed : List Nat}, (∀ s ∈ body, s ∈ nul) →
      (∀ j ∈ nullPositions nul body i, j ∈ removed) →
      dropIdxs body i removed = [] := by
  induction body with
  | nil => intro i removed _ _; rfl
  | cons s rest ih =>
    intro i removed hall hsub
    have hs : s ∈ nul := hall s (List.mem_cons_self _ _)
    have hpos : nullPositions nul (s :: rest) i = i :: nullPositions nul rest (i + 1) := by
      rw [nullPositions_cons, if_pos hs]
    have hi : i ∈ removed := hsub i (hpos ▸ List.mem_cons_self _ _)
    unfold dropIdxs
    rw [if_pos hi]
    exact ih (fun x hx => hall x (List.mem_cons_of_mem _ hx))
      (fun j hj => hsub j (hpos ▸ List.mem_cons_of_mem _ hj))

theorem all_null_of_dropIdxs_nil {nul : List String} {body : List String} :
    ∀ {i : Nat} {removed : List Nat}, dropIdxs body i removed = [] →
      (∀ j ∈ removed, j ∈ nullPositions nul body i ∨ j < i) →
      ∀ s ∈ body, s ∈ nul := by
  induction body with
  | nil => intro i removed _ _ s hs; simp at hs
  | cons s0 rest ih =>
    intro i removed hdrop hsub s hs
    unfold dropIdxs at hdrop
    split at hdrop
    · rename_i hi
      have hs0 : s0 ∈ nul := by
        rcases hsub i hi with hj | hj
        · unfold nullPositions at hj
          by_cases hmem : s0 ∈ nul
          · exact hmem
          · rw [if_neg hmem] at hj
            have := nullPositions_ge hj
            omega
        · omega
      rcases List.mem_cons.mp hs with hseq | hsr
      · exact hseq ▸ hs0
      · refine ih hdrop ?_ s hsr
        intro j hj
        rcases hsub j hj with hj2 | hj2
        · unfold nullPositions at hj2
          rw [if_pos hs0] at hj2
          rcases List.mem_cons.mp hj2 with hj3 | hj3
          · right; omega
          · left; exact hj3
        · right; omega
    · simp at hdrop

theorem maskCandidate_subset {nul : List String} (body : List String) (mask : Nat) :
    maskCandidate nul body mask ⊆ body :=
  fun _ hx => mem_dropIdxs hx

theorem all_null_of_maskCandidate_nil {nul : List String} {body : List String}
    {mask : Nat} (h : maskCandidate nul body mask = []) : ∀ s ∈ body, s ∈ nul := by
  refine all_null_of_dropIdxs_nil h ?_
  intro j hj
  exact Or.inl (maskSelect_subset _ _ hj)

theorem maskCandidate_nil_exists {nul : List String} {body : List String}
    (h : ∀ s ∈ body, s ∈ nul) :
    ∃ mask ∈ List.range (2 ^ (nullPositions nul body 0).length),
      maskCandidate nul body mask = [] := by
  refine ⟨2 ^ (nullPositions nul body 0).length - 1, ?_, ?_⟩
  · have : 1 ≤ 2 ^ (nullPositions nul body 0).length := Nat.one_le_two_pow
    exact List.mem_range.mpr (by omega)
  · unfold maskCandidate
    rw [maskSelect_all]
    exact dropIdxs_nil_of_all h (fun j hj => hj)

/-! Lemmas on the body sets built by the epsilon eliminator. -/

theorem maskFoldAux_sub (S : String) (nul : List String) (h : String) (body : Body)
    (masks : List Nat) :
    ∀ acc, acc ⊆ masks.foldl (fun a mask =>
      if maskCandidate nul body mask ≠ [] ∨ h = S then addBody a (maskCandidate nul body mask)
      else a) acc := by
  induction masks with
  | nil => intro acc; simp
  | cons m masks ih =>
    intro acc
    rw [List.foldl_cons]
    refine Set.Subset.trans ?_ (ih _)
    split
    · exact addBody_sub _ _
    · exact fun _ hx => hx

theorem mem_maskFoldAux (S : String) (nul : List String) (h : String) (body : Body)
    (masks : List Nat) :
    ∀ acc x, x ∈ masks.foldl (fun a mask =>
      if maskCandidate nul body mask ≠ [] ∨ h = S then addBody a (maskCandidate nul body mask)
      else a) acc → x ∈ acc ∨ ∃ mask, x = maskCandidate nul body mask := by
  induction masks with
  | nil => intro acc x hx; exact Or.inl hx
  | cons m masks ih =>
    intro acc x hx
    rw [List.foldl_cons] at hx
    rcases ih _ x hx with hx2 | hx2
    · split at hx2
      · rcases mem_addBody hx2 with hx3 | hx3
        · exact Or.inl hx3
        · exact Or.inr ⟨m, hx3⟩
      · exact Or.inl hx2
    · exact Or.inr hx2

theorem maskFoldAux_nodup (S : String) (nul : List String) (h : String) (body : Body)
    (masks : List Nat) :
    ∀ acc, acc.Nodup → (masks.foldl (fun a mask =>
      if maskCandidate nul body mask ≠ [] ∨ h = S then addBody a (maskCandidate nul body mask)
      else a) acc).Nodup := by
  induction masks with
  | nil => intro acc hn; exact hn
  | cons m masks ih =>
    intro acc hn
    rw [List.foldl_cons]
    refine ih _ ?_
    split
    · exact nodup_addBody _ hn
    · exact hn

theorem maskFoldAux_qualify (S : String) (nul : List String) (h : String) (body : Body)
    {masks : List Nat} {mask : Nat} (hm : mask ∈ masks)
    (hc : maskCandidate nul body mask ≠ [] ∨ h = S) :
    ∀ acc, maskCandidate nul body mask ∈ masks.foldl (fun a m2 =>
      if maskCandidate nul body m2 ≠ [] ∨ h = S then addBody a (maskCandidate nul body m2)
      else a) acc := by
  induction masks with
  | nil => simp at hm
  | cons m0 masks ih =>
    intro acc
    rw [List.foldl_cons]
    rcases List.mem_cons.mp hm with hm0 | hms
    · subst hm0
      apply maskFoldAux_sub
      rw [if_pos hc]
      exact self_mem_addBody _ _
    · exact ih hms _

theorem maskFold_sub (S : String) (nul : List String) (h : String) (body : Body)
    (acc : List Body) : acc ⊆ maskFold S nul h body acc :=
  maskFoldAux_sub S nul h body _ acc

theorem mem_maskFold {S : String} {nul : List String} {h : String} {body : Body}
    {acc : List Body} {x : Body} (hx : x ∈ maskFold S nul h body acc) :
    x ∈ acc ∨ ∃ mask, x = maskCandidate nul body mask :=
  mem_maskFoldAux S nul h body _ acc x hx

theorem maskFold_nodup (S : String) (nul : List String) (h : String) (body : Body)
    {acc : List Body} (hn : acc.Nodup) : (maskFold S nul h body acc).Nodup :=
  maskFoldAux_nodup S nul h body _ acc hn

theorem newBodiesBaseAux_sub (S : String) (nul : List String) (h : String)
    (bs : List Body) :
    ∀ acc, acc ⊆ bs.foldl (fun acc body => addBody (maskFold S nul h body acc) body) acc := by
  induction bs with
  | nil => intro acc; simp
  | cons b bs ih =>
    intro acc
    rw [List.foldl_cons]
    refine Set.Subset.trans ?_ (ih _)
    exact Set.Subset.trans (maskFold_sub S nul h b acc) (addBody_sub _ _)

theorem mem_newBodiesBaseAux (S : String) (nul : List String) (h : String)
    (bs : List Body) :
    ∀ acc x, x ∈ bs.foldl (fun acc body => addBody (maskFold S nul h body acc) body) acc →
      x ∈ acc ∨ ∃ body ∈ bs, x = body ∨ ∃ mask, x = maskCandidate nul body mask := by
  induction bs with
  | nil => intro acc x hx; exact Or.inl hx
  | cons b bs ih =>
    intro acc x hx
    rw [List.foldl_cons] at hx
    rcases ih _ x hx with hx2 | ⟨body, hbody, hx3⟩
    · rcases mem_addBody hx2 with hx3 | hx3
      · rcases mem_maskFold hx3 with hx4 | ⟨mask, hx4⟩
        · exact Or.inl hx4
        · exact Or.inr ⟨b, List.mem_cons_self _ _, Or.inr ⟨mask, hx4⟩⟩
      · exact Or.inr ⟨b, List.mem_cons_self _ _, Or.inl hx3⟩
    · exact Or.inr ⟨body, List.mem_cons_of_mem _ hbody, hx3⟩

theorem mem_newBodiesBase {S : String} {nul : List String} {h : String}
    {bs : List Body} {x : Body} (hx : x ∈ newBodiesBase S nul h bs) :
    ∃ body ∈ bs, x = body ∨ ∃ mask, x = maskCandidate nul body mask := by
  rcases mem_newBodiesBaseAux S nul h bs [] x hx with hx2 | hx2
  · simp at hx2
  · exact hx2

theorem newBodiesBase_nodup (S : String) (nul : List String) (h : String)
    (bs : List Body) : (newBodiesBase S nul h bs).Nodup := by
  unfold newBodiesBase
  generalize hacc : ([] : List Body) = acc
  have hn : acc.Nodup := hacc ▸ List.nodup_nil
  clear hacc
  induction bs generalizing acc with
  | nil => exact hn
  | cons b bs ih =>
    rw [List.foldl_cons]
    exact ih _ (nodup_addBody _ (maskFold_nodup S nul h b hn))

theorem orig_mem_newBodiesBase (S : String) (nul : List String) (h : String)
    {bs : List Body} {body : Body} (hb : body ∈ bs) :
    body ∈ newBodiesBase S nul h bs := by
  unfold newBodiesBase
  generalize ([] : List Body) = acc
  induction bs generalizing acc with
  | nil => simp at hb
  | cons b bs ih =>
    rw [List.foldl_cons]
    rcases List.mem_cons.mp hb with hb0 | hbs
    · subst hb0
      exact newBodiesBaseAux_sub S nul h bs _ (self_mem_addBody _ _)
    · exact ih hbs _

theorem eps_mem_newBodiesBase (S : String) (nul : List String)
    {bs : List Body} {body : Body} (hb : body ∈ bs) (hall : ∀ s ∈ body, s ∈ nul) :
    ([] : Body) ∈ newBodiesBase S nul S bs := by
  obtain ⟨mask, hmask, hcand⟩ := maskCandidate_nil_exists hall
  unfold newBodiesBase
  generalize ([] : List Body) = acc
  induction bs generalizing acc with
  | nil => simp at hb
  | cons b bs ih =>
    rw [List.foldl_cons]
    rcases List.mem_cons.mp hb with hb0 | hbs
    · subst hb0
      refine newBodiesBaseAux_sub S nul S bs _ (addBody_sub _ _ ?_)
      have := maskFoldAux_qualify S nul S body hmask (Or.inr rfl) acc
      rw [hcand] at this
      exact this
    · exact ih hbs _

theorem newBodiesFor_no_eps {S : String} {nul : List String} {h : String}
    {bs : List Body} (hne : h ≠ S) : ([] : Body) ∉ newBodiesFor S nul h bs := by
  unfold newBodiesFor
  rw [if_pos hne]
  intro hmem
  have := List.of_mem_filter hmem
  simp at this

theorem mem_newBodiesFor {S : String} {nul : List String} {h : String}
    {bs : List Body} {x : Body} (hx : x ∈ newBodiesFor S nul h bs) :
    ∃ body ∈ bs, x = body ∨ ∃ mask, x = maskCandidate nul body mask := by
  unfold newBodiesFor at hx
  split at hx
  · exact mem_newBodiesBase (List.mem_of_mem_filter hx)
  · exact mem_newBodiesBase hx

theorem newBodiesFor_nodup (S : String) (nul : List String) (h : String)
    (bs : List Body) : (newBodiesFor S nul h bs).Nodup := by
  unfold newBodiesFor
  split
  · exact (newBodiesBase_nodup S nul h bs).filter _
  · exact newBodiesBase_nodup S nul h bs

theorem eps_mem_newBodiesFor_S (S : String) (nul : List String) (bs : List Body) :
    ([] : Body) ∈ newBodiesFor S nul S bs ↔ ∃ body ∈ bs, ∀ s ∈ body, s ∈ nul := by
  unfold newBodiesFor
  rw [if_neg (by simp)]
  constructor
  · intro hmem
    rcases mem_newBodiesBase hmem with ⟨body, hbody, hcase⟩
    rcases hcase with hcase | ⟨mask, hcase⟩
    · exact ⟨body, hbody, by rw [← hcase]; simp⟩
    · exact ⟨body, hbody, all_null_of_maskCandidate_nil hcase.symm⟩
  · intro ⟨body, hbody, hall⟩
    exact eps_mem_newBodiesBase S nul hbody hall

theorem newBodiesFor_symbols {S : String} {nul : List String} {h : String}
    {bs : List Body} {x : Body} (hx : x ∈ newBodiesFor S nul h bs) :
    ∀ s ∈ x, ∃ body ∈ bs, s ∈ body := by
  intro s hs
  rcases mem_newBodiesFor hx with ⟨body, hbody, hcase⟩
  rcases hcase with hcase | ⟨mask, hcase⟩
  · exact ⟨body, hbody, hcase ▸ hs⟩
  · exact ⟨body, hbody, maskCandidate_subset body mask (hcase ▸ hs)⟩

/-! Justification of the nullable set: every member has a witnessing body. -/

theorem nullScan_justified {P : PMap} {hd : String} {bs0 : List Body} (bs : List Body)
    {acc : List String} (hmem : (hd, bs0) ∈ P) (hsub : ∀ b ∈ bs, b ∈ bs0)
    (hacc : ∀ x ∈ acc, ∃ bodies b, (x, bodies) ∈ P ∧ b ∈ bodies ∧ ∀ s ∈ b, s ∈ acc) :
    ∀ x ∈ nullScan hd bs acc,
      ∃ bodies b, (x, bodies) ∈ P ∧ b ∈ bodies ∧ ∀ s ∈ b, s ∈ nullScan hd bs acc := by
  induction bs generalizing acc with
  | nil =>
    intro x hx
    obtain ⟨bodies, b, h1, h2, h3⟩ := hacc x hx
    exact ⟨bodies, b, h1, h2, h3⟩
  | cons b bs ih =>
    rw [nullScan_cons]
    apply ih (fun b2 hb2 => hsub b2 (List.mem_cons_of_mem _ hb2))
    split
    · rename_i hcond
      intro x hx
      rcases List.mem_append.mp hx with hx | hx
      · obtain ⟨bodies, b2, h1, h2, h3⟩ := hacc x hx
        exact ⟨bodies, b2, h1, h2, fun s hs => List.mem_append_left _ (h3 s hs)⟩
      · have hxh : x = hd := by simpa using hx
        subst hxh
        exact ⟨bs0, b, hmem, hsub b (List.mem_cons_self _ _),
          fun s hs => List.mem_append_left _ (hcond.1 s hs)⟩
    · exact hacc

theorem nullStep_justified {P0 P : PMap} (hP : ∀ e ∈ P, e ∈ P0) {acc : List String}
    (hacc : ∀ x ∈ acc, ∃ bodies b, (x, bodies) ∈ P0 ∧ b ∈ bodies ∧ ∀ s ∈ b, s ∈ acc) :
    ∀ x ∈ nullStep P acc,
      ∃ bodies b, (x, bodies) ∈ P0 ∧ b ∈ bodies ∧ ∀ s ∈ b, s ∈ nullStep P acc := by
  induction P generalizing acc with
  | nil => exact hacc
  | cons e P ih =>
    rw [nullStep_cons]
    apply ih (fun e2 he2 => hP e2 (List.mem_cons_of_mem _ he2))
    have hmem : (e.1, e.2) ∈ P0 := by
      have := hP e (List.mem_cons_self _ _)
      simpa using this
    exact nullScan_justified e.2 hmem (fun b hb => hb) hacc

theorem nullIter_justified {P : PMap} (n : Nat) {acc : List String}
    (hacc : ∀ x ∈ acc, ∃ bodies b, (x, bodies) ∈ P ∧ b ∈ bodies ∧ ∀ s ∈ b, s ∈ acc) :
    ∀ x ∈ nullIter P n acc,
      ∃ bodies b, (x, bodies) ∈ P ∧ b ∈ bodies ∧ ∀ s ∈ b, s ∈ nullIter P n acc := by
  induction n generalizing acc with
  | zero => exact hacc
  | succ n ih =>
    rw [nullIter_succ]
    split
    · exact hacc
    · exact ih (nullStep_justified (fun e he => he) hacc)

theorem find_nullable_justified (G : CFG) :
    ∀ x ∈ find_nullable G,
      ∃ bodies b, (x, bodies) ∈ G.P ∧ b ∈ bodies ∧ ∀ s ∈ b, s ∈ find_nullable G :=
  nullIter_justified _ (by simp)

/-! Structural lemmas on remove_epsilon_rules. -/

theorem sInRHSb_false_iff (P : PMap) (S : String) :
    sInRHSb P S = false ↔ ∀ e ∈ P, ∀ b ∈ e.2, S ∉ b := by
  simp [sInRHSb]

theorem sInRHSb_true_iff (P : PMap) (S : String) :
    sInRHSb P S = true ↔ ∃ e ∈ P, ∃ b ∈ e.2, S ∈ b := by
  simp [sInRHSb]

theorem lookupD_map_keys (P : PMap) (g : String → List Body → List Body) (a : String) :
    lookupD (P.map (fun e => (e.1, g e.1 e.2))) a =
      if a ∈ P.map Prod.fst then g a (lookupD P a) else [] := by
  induction P with
  | nil => simp [lookupD]
  | cons p rest ih =>
    obtain ⟨k, v⟩ := p
    by_cases hk : k = a
    · subst hk
      simp [lookupD]
    · simp only [List.map_cons, lookupD, if_neg hk, ih, List.mem_cons]
      have h2 : ¬ a = k := fun h => hk h.symm
      simp only [h2, false_or]

theorem epsP1_keys (G : CFG) : (epsP1 G).map Prod.fst = G.P.map Prod.fst := by
  simp [epsP1, List.map_map]

theorem mem_epsP1 {G : CFG} {e : String × List Body} :
    e ∈ epsP1 G ↔
      ∃ e0 ∈ G.P, e = (e0.1, newBodiesFor G.S (find_nullable G) e0.1 e0.2) := by
  simp only [epsP1, List.mem_map]
  constructor
  · intro ⟨e0, he0, heq⟩
    exact ⟨e0, he0, heq.symm⟩
  · intro ⟨e0, he0, heq⟩
    exact ⟨e0, he0, heq.symm⟩

theorem lookupD_epsP1 {G : CFG} {a : String} (h : a ∈ G.P.map Prod.fst) :
    lookupD (epsP1 G) a = newBodiesFor G.S (find_nullable G) a (lookupD G.P a) := by
  unfold epsP1
  rw [lookupD_map_keys, if_pos h]

theorem epsP1_bodies_nodup {G : CFG} {e : String × List Body} (he : e ∈ epsP1 G) :
    e.2.Nodup := by
  rcases mem_epsP1.mp he with ⟨e0, -, heq⟩
  rw [heq]
  exact newBodiesFor_nodup _ _ _ _

theorem lookupD_epsP1_nodup (G : CFG) (a : String) : (lookupD (epsP1 G) a).Nodup := by
  rcases lookupD_cases (epsP1 G) a with h | h
  · simp [h]
  · exact epsP1_bodies_nodup h

theorem mem_epsP2 {G : CFG} {e : String × List Body} (he : e ∈ epsP2 G) :
    e ∈ epsP1 G
    ∨ (sInRHSb (epsP1 G) G.S = true ∧ G.S ∈ (epsP1 G).map Prod.fst ∧
        e = (G.S, (lookupD (epsP1 G) G.S).erase []))
    ∨ (sInRHSb (epsP1 G) G.S = false ∧ G.S ∈ find_nullable G ∧
        [] ∉ lookupD (epsP1 G) G.S ∧ G.S ∈ (epsP1 G).map Prod.fst ∧
        e = (G.S, lookupD (epsP1 G) G.S ++ [[]])) := by
  unfold epsP2 at he
  split at he
  · rename_i hrhs
    rcases mem_setKeyF he with h | ⟨hm, heq⟩
    · exact Or.inl h
    · exact Or.inr (Or.inl ⟨hrhs, hm, heq⟩)
  · rename_i hrhs
    split at he
    · rename_i hguard
      rcases mem_setKeyF he with h | ⟨hm, heq⟩
      · exact Or.inl h
      · exact Or.inr (Or.inr ⟨Bool.of_not_eq_true hrhs, hguard.1, hguard.2, hm, heq⟩)
    · exact Or.inl he

theorem epsP2_no_eps {G : CFG} {e : String × List Body} (he : e ∈ epsP2 G)
    (hne : e.1 ≠ G.S) : [] ∉ e.2 := by
  rcases mem_epsP2 he with h | h | h
  · rcases mem_epsP1.mp h with ⟨e0, -, heq⟩
    have : e.1 = e0.1 := by rw [heq]
    rw [heq]
    exact newBodiesFor_no_eps (this ▸ hne)
  · exact absurd (by rw [h.2.2]) hne
  · exact absurd (by rw [h.2.2.2.2]) hne

theorem countEps_nil : countEps [] = 0 := rfl

theorem countEps_cons (b : Body) (bs : List Body) :
    countEps (b :: bs) = (if b = [] then 1 else 0) + countEps bs := rfl

theorem countEps_append (l1 l2 : List Body) :
    countEps (l1 ++ l2) = countEps l1 + countEps l2 := by
  induction l1 with
  | nil => simp [countEps]
  | cons b bs ih =>
    simp only [List.cons_append, countEps_cons, ih]
    omega

theorem countEps_eq_zero {l : List Body} : countEps l = 0 ↔ [] ∉ l := by
  induction l with
  | nil => simp [countEps]
  | cons b bs ih =>
    rw [countEps_cons]
    by_cases hb : b = []
    · simp [hb]
    · simp only [if_neg hb, Nat.zero_add, ih, List.mem_cons]
      constructor
      · intro h h2
        rcases h2 with h2 | h2
        · exact hb h2.symm
        · exact h h2
      · intro h h2
        exact h (Or.inr h2)

theorem countEps_le_one_of_nodup {l : List Body} (h : l.Nodup) : countEps l ≤ 1 := by
  induction l with
  | nil => simp [countEps]
  | cons b bs ih =>
    rw [countEps_cons]
    rcases List.nodup_cons.mp h with ⟨hb, hbs⟩
    by_cases hbe : b = []
    · subst hbe
      have h0 : countEps bs = 0 := countEps_eq_zero.mpr hb
      rw [if_pos rfl, h0]
    · have := ih hbs
      rw [if_neg hbe]
      omega

theorem countEps_erase (l : List Body) :
    countEps (l.erase []) + (if ([] : Body) ∈ l then 1 else 0) = countEps l := by
  induction l with
  | nil => simp [countEps]
  | cons b bs ih =>
    rw [List.erase_cons]
    by_cases hb : b = []
    · subst hb
      simp [countEps_cons]
      omega
    · rw [if_neg (by simpa using hb)]
      rw [countEps_cons, countEps_cons, if_neg hb]
      have hmem : (([] : Body) ∈ b :: bs) ↔ (([] : Body) ∈ bs) := by
        simp [List.mem_cons, Ne.symm hb]
      by_cases h2 : ([] : Body) ∈ bs
      · rw [if_pos (hmem.mpr h2)]
        rw [if_pos h2] at ih
        omega
      · rw [if_neg (fun hx => h2 (hmem.mp hx))]
        rw [if_neg h2] at ih
        omega

theorem epsP2_count_eps {G : CFG} {e : String × List Body} (he : e ∈ epsP2 G) :
    countEps e.2 ≤ 1 := by
  rcases mem_epsP2 he with h | h | h
  · exact countEps_le_one_of_nodup (epsP1_bodies_nodup h)
  · rw [h.2.2]
    have h1 := countEps_le_one_of_nodup (lookupD_epsP1_nodup G G.S)
    have h2 := countEps_erase (lookupD (epsP1 G) G.S)
    simp only
    omega
  · rw [h.2.2.2.2]
    have h0 : countEps (lookupD (epsP1 G) G.S) = 0 := countEps_eq_zero.mpr h.2.2.1
    simp only [countEps_append, h0]
    simp [countEps_cons, countEps_nil]

theorem setKeyF_body_preserved {P : PMap} {a : String} {b : Body}
    (f : List Body → List Body) (hf : ∀ v, b ∈ v → b ∈ f v) {e : String × List Body}
    (he : e ∈ P) (hb : b ∈ e.2) : ∃ e2 ∈ setKeyF P a f, b ∈ e2.2 := by
  induction P with
  | nil => simp at he
  | cons p rest ih =>
    obtain ⟨k, v⟩ := p
    by_cases hk : k = a
    · subst hk
      rcases List.mem_cons.mp he with he0 | her
      · refine ⟨(k, f v), ?_, ?_⟩
        · simp [setKeyF]
        · exact hf v (by rw [he0] at hb; exact hb)
      · exact ⟨e, by simp [setKeyF, List.mem_cons_of_mem _ her], hb⟩
    · rcases List.mem_cons.mp he with he0 | her
      · exact ⟨(k, v), by simp [setKeyF, hk], by rw [he0] at hb; exact hb⟩
      · obtain ⟨e2, he2, hb2⟩ := ih her
        exact ⟨e2, by simp [setKeyF, hk, List.mem_cons_of_mem _ he2], hb2⟩

theorem epsP2_eps_S_no_S {G : CFG} (h : [] ∈ lookupD (epsP2 G) G.S) :
    ∀ e ∈ epsP2 G, ∀ b ∈ e.2, G.S ∉ b := by
  by_cases hrhs : sInRHSb (epsP1 G) G.S
  · exfalso
    unfold epsP2 at h
    rw [if_pos hrhs] at h
    by_cases hm : G.S ∈ (epsP1 G).map Prod.fst
    · rw [lookupD_setKeyF_self _ hm] at h
      have := (List.Nodup.mem_erase_iff (lookupD_epsP1_nodup G G.S)).mp h
      exact this.1 rfl
    · rw [setKeyF_not_mem _ hm, lookupD_eq_nil_of_not_mem hm] at h
      simp at h
  · intro e he b hb
    have hfalse : sInRHSb (epsP1 G) G.S = false := Bool.of_not_eq_true hrhs
    rcases mem_epsP2 he with h2 | h2 | h2
    · exact (sInRHSb_false_iff _ _).mp hfalse e h2 b hb
    · exact absurd h2.1 hrhs
    · rw [h2.2.2.2.2] at hb
      simp only at hb
      rcases List.mem_append.mp hb with hb2 | hb2
      · rcases lookupD_cases (epsP1 G) G.S with hc | hc
        · rw [hc] at hb2; simp at hb2
        · exact (sInRHSb_false_iff _ _).mp hfalse _ hc b hb2
      · have : b = [] := by simpa using hb2
        simp [this]

theorem epsP2_eps_S_iff {G : CFG} (hwf : WellFormed G) :
    [] ∈ lookupD (epsP2 G) G.S ↔
      (G.S ∈ find_nullable G ∧ ∀ e ∈ epsP2 G, ∀ b ∈ e.2, G.S ∉ b) := by
  have hSkeys : G.S ∈ G.P.map Prod.fst := hwf.2.2.1 G.S hwf.2.1
  have hSkeys1 : G.S ∈ (epsP1 G).map Prod.fst := by rw [epsP1_keys]; exact hSkeys
  have hlook1 : lookupD (epsP1 G) G.S =
      newBodiesFor G.S (find_nullable G) G.S (lookupD G.P G.S) := lookupD_epsP1 hSkeys
  have hentry : (G.S, lookupD G.P G.S) ∈ G.P := lookupD_mem_of_mem_keys hSkeys
  have heps1 : [] ∈ lookupD (epsP1 G) G.S ↔ G.S ∈ find_nullable G := by
    rw [hlook1, eps_mem_newBodiesFor_S]
    constructor
    · intro ⟨body, hb, hall⟩
      exact find_nullable_closed G (G.S, lookupD G.P G.S) hentry body hb hall
    · intro hS
      obtain ⟨bodies, b, hmem, hb, hall⟩ := find_nullable_justified G G.S hS
      have hlk : lookupD G.P G.S = bodies := lookupD_of_mem_nodup hwf.2.2.2.2 hmem
      refine ⟨b, ?_, hall⟩
      rw [hlk]
      exact hb
  constructor
  · intro h
    exact ⟨by
      by_cases hrhs : sInRHSb (epsP1 G) G.S
      · exfalso
        unfold epsP2 at h
        rw [if_pos hrhs, lookupD_setKeyF_self _ hSkeys1] at h
        exact ((List.Nodup.mem_erase_iff (lookupD_epsP1_nodup G G.S)).mp h).1 rfl
      · unfold epsP2 at h
        rw [if_neg hrhs] at h
        split at h
        · rename_i hguard
          exact hguard.1
        · exact heps1.mp h, epsP2_eps_S_no_S h⟩
  · intro ⟨hS, hnoS⟩
    have hrhs : sInRHSb (epsP1 G) G.S = false := by
      by_contra hne
      have htrue : sInRHSb (epsP1 G) G.S = true := by
        cases hb : sInRHSb (epsP1 G) G.S
        · exact absurd hb hne
        · rfl
      obtain ⟨e, he, b, hb, hSb⟩ := (sInRHSb_true_iff _ _).mp htrue
      have hbne : b ≠ [] := by
        intro hbe
        rw [hbe] at hSb
        simp at hSb
      obtain ⟨e2, he2, hb2⟩ := @setKeyF_body_preserved _ G.S _
        (fun v => v.erase []) (fun v hv => (List.mem_erase_of_ne hbne).mpr hv) _ he hb
      have he2m : e2 ∈ epsP2 G := by
        unfold epsP2
        rw [if_pos htrue]
        exact he2
      exact hnoS e2 he2m b hb2 hSb
    unfold epsP2
    rw [if_neg (by simp [hrhs])]
    by_cases hguard : G.S ∈ find_nullable G ∧ [] ∉ lookupD (epsP1 G) G.S
    · rw [if_pos hguard, lookupD_setKeyF_self _ hSkeys1]
      simp
    · rw [if_neg hguard]
      rcases not_and_or.mp hguard with hg | hg
      · exact absurd hS hg
      · exact not_not.mp hg

theorem epsP2_keys (G : CFG) : (epsP2 G).map Prod.fst = G.P.map Prod.fst := by
  unfold epsP2
  split
  · rw [setKeyF_keys, epsP1_keys]
  · split
    · rw [setKeyF_keys, epsP1_keys]
    · exact epsP1_keys G

theorem epsP1_symbols {G : CFG} (hc : SymbolsClosed G) :
    ∀ e ∈ epsP1 G, ∀ b ∈ e.2, ∀ s ∈ b, s ∈ G.Sigma ∨ s ∈ G.N := by
  intro e he b hb s hs
  rcases mem_epsP1.mp he with ⟨e0, he0, heq⟩
  rw [heq] at hb
  obtain ⟨body, hbody, hsb⟩ := newBodiesFor_symbols hb s hs
  exact hc e0 he0 body hbody s hsb

theorem remove_symbols_closed {G : CFG} (hc : SymbolsClosed G) :
    SymbolsClosed (remove_epsilon_rules G) := by
  intro e he b hb s hs
  have he2 : e ∈ epsP2 G := he
  rcases mem_epsP2 he2 with h | h | h
  · exact epsP1_symbols hc e h b hb s hs
  · rw [h.2.2] at hb
    simp only at hb
    have hb2 : b ∈ lookupD (epsP1 G) G.S := List.mem_of_mem_erase hb
    rcases lookupD_cases (epsP1 G) G.S with hcs | hcs
    · rw [hcs] at hb2; simp at hb2
    · exact epsP1_symbols hc _ hcs b hb2 s hs
  · rw [h.2.2.2.2] at hb
    simp only at hb
    rcases List.mem_append.mp hb with hb2 | hb2
    · rcases lookupD_cases (epsP1 G) G.S with hcs | hcs
      · rw [hcs] at hb2; simp at hb2
      · exact epsP1_symbols hc _ hcs b hb2 s hs
    · have : b = [] := by simpa using hb2
      rw [this] at hs
      simp at hs

/-! Structural lemmas on the left-recursion eliminator. -/

theorem self_mem_addSet (l : List String) (x : String) : x ∈ addSet l x := by
  unfold addSet
  split
  · assumption
  · simp

theorem expandRule_nil (betas : List Body) (B : String) :
    expandRule betas B [] = [[]] := rfl

theorem expandRule_cons (betas : List Body) (B : String) (s : String) (rest : Body) :
    expandRule betas B (s :: rest) =
      if s = B then betas.map (fun beta => beta ++ rest) else [s :: rest] := rfl

theorem mem_expandRule {betas : List Body} {B : String} {rule x : Body}
    (hx : x ∈ expandRule betas B rule) :
    (rule = [] ∧ x = []) ∨
      ∃ s rest, rule = s :: rest ∧
        ((s = B ∧ ∃ bet ∈ betas, x = bet ++ rest) ∨ (s ≠ B ∧ x = s :: rest)) := by
  cases rule with
  | nil =>
    left
    refine ⟨rfl, ?_⟩
    simpa [expandRule] using hx
  | cons s rest =>
    right
    refine ⟨s, rest, rfl, ?_⟩
    rw [expandRule_cons] at hx
    by_cases hs : s = B
    · rw [if_pos hs] at hx
      rcases List.mem_map.mp hx with ⟨bet, hbet, heq⟩
      exact Or.inl ⟨hs, bet, hbet, heq.symm⟩
    · rw [if_neg hs] at hx
      exact Or.inr ⟨hs, by simpa using hx⟩

theorem mem_substLeading {betas : List Body} {B : String} {rules : List Body} {x : Body}
    (hx : x ∈ substLeading betas B rules) :
    ∃ rule ∈ rules, x ∈ expandRule betas B rule := by
  unfold substLeading at hx
  exact List.mem_flatMap.mp hx

theorem substLeading_mem_of {betas : List Body} {B : String} {rules : List Body}
    {rule x : Body} (hr : rule ∈ rules) (hx : x ∈ expandRule betas B rule) :
    x ∈ substLeading betas B rules := by
  unfold substLeading
  exact List.mem_flatMap.mpr ⟨rule, hr, hx⟩

theorem elimLoop_nil (P0 : PMap) (st : ElimState) (processed : List String) :
    elimLoop P0 st processed [] = st := rfl

theorem elimLoop_cons (P0 : PMap) (st : ElimState) (processed : List String)
    (A : String) (rest : List String) :
    elimLoop P0 st processed (A :: rest) =
      elimLoop P0 (elimStepA P0 st processed A) (processed ++ [A]) rest := rfl

theorem elimStepA_newN (P0 : PMap) (st : ElimState) (processed : List String)
    (A : String) :
    (elimStepA P0 st processed A).newN = st.newN ∨
      (elimStepA P0 st processed A).newN = addSet st.newN (primeName A) := by
  unfold elimStepA
  split
  · exact Or.inr rfl
  · exact Or.inl rfl

theorem elimLoop_newN (P0 : PMap) :
    ∀ (todo : List String) (st : ElimState) (processed : List String),
      st.newN ⊆ (elimLoop P0 st processed todo).newN ∧
      (∀ x ∈ (elimLoop P0 st processed todo).newN,
        x ∈ st.newN ∨ ∃ A ∈ todo, x = primeName A) ∧
      (elimLoop P0 st processed todo).newN.length ≤ st.newN.length + todo.length := by
  intro todo
  induction todo with
  | nil =>
    intro st processed
    rw [elimLoop_nil]
    exact ⟨fun _ h => h, fun x hx => Or.inl hx, by simp⟩
  | cons A rest ih =>
    intro st processed
    rw [elimLoop_cons]
    obtain ⟨hsub, hchar, hlen⟩ := ih (elimStepA P0 st processed A) (processed ++ [A])
    rcases elimStepA_newN P0 st processed A with hN | hN
    · refine ⟨?_, ?_, ?_⟩
      · intro x hx
        apply hsub
        rw [hN]
        exact hx
      · intro x hx
        rcases hchar x hx with h | ⟨A2, hA2, hx2⟩
        · rw [hN] at h
          exact Or.inl h
        · exact Or.inr ⟨A2, List.mem_cons_of_mem _ hA2, hx2⟩
      · rw [hN] at hlen
        simp only [List.length_cons]
        omega
    · refine ⟨?_, ?_, ?_⟩
      · intro x hx
        apply hsub
        rw [hN]
        exact addSet_sub st.newN (primeName A) hx
      · intro x hx
        rcases hchar x hx with h | ⟨A2, hA2, hx2⟩
        · rw [hN] at h
          rcases mem_addSet h with h2 | h2
          · exact Or.inl h2
          · exact Or.inr ⟨A, List.mem_cons_self _ _, h2⟩
        · exact Or.inr ⟨A2, List.mem_cons_of_mem _ hA2, hx2⟩
      · have := addSet_length st.newN (primeName A)
        rw [hN] at hlen
        simp only [List.length_cons]
        omega

theorem elimCurrent_symbols {P0 : PMap} {st : ElimState} {processed : List String}
    {A : String} {Sigma N0 : List String}
    (hP0 : ∀ e ∈ P0, ∀ b ∈ e.2, ∀ s ∈ b, s ∈ Sigma ∨ s ∈ N0)
    (hN0 : ∀ x ∈ N0, x ∈ st.newN)
    (hinv : ∀ e ∈ st.newP, ∀ b ∈ e.2, ∀ s ∈ b, s ∈ Sigma ∨ s ∈ st.newN) :
    ∀ b ∈ elimCurrent P0 st processed A, ∀ s ∈ b, s ∈ Sigma ∨ s ∈ st.newN := by
  unfold elimCurrent
  have hbase : ∀ b ∈ lookupD P0 A, ∀ s ∈ b, s ∈ Sigma ∨ s ∈ st.newN := by
    rcases lookupD_cases P0 A with h | h
    · rw [h]; simp
    · intro b hb s hs
      rcases hP0 _ h b hb s hs with h2 | h2
      · exact Or.inl h2
      · exact Or.inr (hN0 s h2)
  generalize lookupD P0 A = base at hbase ⊢
  induction processed generalizing base with
  | nil => exact hbase
  | cons B pr ih =>
    rw [List.foldl_cons]
    apply ih
    intro b hb s hs
    obtain ⟨rule, hrule, hexp⟩ := mem_substLeading hb
    rcases mem_expandRule hexp with ⟨-, hbe⟩ | ⟨s0, rest, hreq, hcase⟩
    · rw [hbe] at hs
      simp at hs
    · rcases hcase with ⟨-, bet, hbet, hbeq⟩ | ⟨-, hbeq⟩
      · rw [hbeq] at hs
        rcases List.mem_append.mp hs with hs2 | hs2
        · rcases lookupD_cases st.newP B with hl | hl
          · rw [hl] at hbet; simp at hbet
          · exact hinv _ hl bet hbet s hs2
        · exact hbase rule hrule s (hreq ▸ List.mem_cons_of_mem _ hs2)
      · rw [hbeq, ← hreq] at hs
        exact hbase rule hrule s hs

theorem elimStepA_symbols {P0 : PMap} {st : ElimState} {processed : List String}
    {A : String} {Sigma N0 : List String}
    (hP0 : ∀ e ∈ P0, ∀ b ∈ e.2, ∀ s ∈ b, s ∈ Sigma ∨ s ∈ N0)
    (hN0 : ∀ x ∈ N0, x ∈ st.newN)
    (hinv : ∀ e ∈ st.newP, ∀ b ∈ e.2, ∀ s ∈ b, s ∈ Sigma ∨ s ∈ st.newN) :
    (∀ x ∈ N0, x ∈ (elimStepA P0 st processed A).newN) ∧
    (∀ e ∈ (elimStepA P0 st processed A).newP, ∀ b ∈ e.2, ∀ s ∈ b,
      s ∈ Sigma ∨ s ∈ (elimStepA P0 st processed A).newN) := by
  have hcur := @elimCurrent_symbols P0 st processed A Sigma N0 hP0 hN0 hinv
  unfold elimStepA
  split
  · constructor
    · intro x hx
      exact addSet_sub _ _ (hN0 x hx)
    · intro e he b hb s hs
      simp only at he hb ⊢
      rcases mem_setKey he with he2 | he2
      · rcases mem_setKey he2 with he3 | he3
        · rcases hinv e he3 b hb s hs with h | h
          · exact Or.inl h
          · exact Or.inr (addSet_sub _ _ h)
        · rw [he3] at hb
          simp only at hb
          rcases List.mem_map.mp hb with ⟨b0, hb0, hbeq⟩
          rw [← hbeq] at hs
          rcases List.mem_append.mp hs with hs2 | hs2
          · rcases hcur b0 (List.mem_of_mem_filter hb0) s hs2 with h | h
            · exact Or.inl h
            · exact Or.inr (addSet_sub _ _ h)
          · have : s = primeName A := by simpa using hs2
            exact Or.inr (this ▸ self_mem_addSet _ _)
      · rw [he2] at hb
        simp only at hb
        rcases List.mem_append.mp hb with hb2 | hb2
        · rcases List.mem_map.mp hb2 with ⟨a0, ha0, hbeq⟩
          rw [← hbeq] at hs
          rcases List.mem_append.mp hs with hs2 | hs2
          · have hs3 : s ∈ a0 := List.mem_of_mem_tail hs2
            rcases hcur a0 (List.mem_of_mem_filter ha0) s hs3 with h | h
            · exact Or.inl h
            · exact Or.inr (addSet_sub _ _ h)
          · have : s = primeName A := by simpa using hs2
            exact Or.inr (this ▸ self_mem_addSet _ _)
        · have : b = [] := by simpa using hb2
          rw [this] at hs
          simp at hs
  · constructor
    · exact hN0
    · intro e he b hb s hs
      simp only at he ⊢
      rcases mem_setKey he with he2 | he2
      · exact hinv e he2 b hb s hs
      · rw [he2] at hb
        exact hcur b hb s hs

theorem elimLoop_symbols {P0 : PMap} {Sigma N0 : List String}
    (hP0 : ∀ e ∈ P0, ∀ b ∈ e.2, ∀ s ∈ b, s ∈ Sigma ∨ s ∈ N0) :
    ∀ (todo : List String) (st : ElimState) (processed : List String),
      (∀ x ∈ N0, x ∈ st.newN) →
      (∀ e ∈ st.newP, ∀ b ∈ e.2, ∀ s ∈ b, s ∈ Sigma ∨ s ∈ st.newN) →
      ∀ e ∈ (elimLoop P0 st processed todo).newP, ∀ b ∈ e.2, ∀ s ∈ b,
        s ∈ Sigma ∨ s ∈ (elimLoop P0 st processed todo).newN := by
  intro todo
  induction todo with
  | nil =>
    intro st processed _ hinv
    rw [elimLoop_nil]
    exact hinv
  | cons A rest ih =>
    intro st processed hN0 hinv
    rw [elimLoop_cons]
    obtain ⟨hN0b, hinvb⟩ := elimStepA_symbols hP0 hN0 hinv
    exact ih _ _ hN0b hinvb

theorem eliminate_symbols_closed {G : CFG} (hc : SymbolsClosed G) :
    SymbolsClosed (eliminate_left_recursion G) := by
  intro e he b hb s hs
  have h := @elimLoop_symbols G.P G.Sigma G.N hc (dedupFirst G.N)
    ⟨(dedupFirst G.N).map (fun nt => (nt, [])), G.N⟩ [] (fun x hx => hx) ?_ e he b hb s hs
  · exact h
  · intro e2 he2 b2 hb2
    rcases List.mem_map.mp he2 with ⟨nt, -, heq⟩
    rw [← heq] at hb2
    simp at hb2

theorem eliminate_Sigma (G : CFG) :
    (eliminate_left_recursion G).Sigma = G.Sigma := rfl

theorem eliminate_S (G : CFG) : (eliminate_left_recursion G).S = G.S := rfl

theorem eliminate_N_facts (G : CFG) :
    G.N ⊆ (eliminate_left_recursion G).N ∧
    (∀ x ∈ (eliminate_left_recursion G).N,
      x ∈ G.N ∨ ∃ A ∈ G.N, x = primeName A) ∧
    (eliminate_left_recursion G).N.length ≤ G.N.length + (dedupFirst G.N).length := by
  obtain ⟨hsub, hchar, hlen⟩ := elimLoop_newN G.P (dedupFirst G.N)
    ⟨(dedupFirst G.N).map (fun nt => (nt, [])), G.N⟩ []
  refine ⟨hsub, ?_, hlen⟩
  intro x hx
  rcases hchar x hx with h | ⟨A, hA, hx2⟩
  · exact Or.inl h
  · exact Or.inr ⟨A, (mem_dedupFirst G.N A).mp hA, hx2⟩

/-! Placement of epsilon bodies through the left-recursion loop. -/

theorem countEps_expandRule_le {betas : List Body} {B : String} {rule : Body}
    (hsafe : ∀ s rest, rule = s :: rest → s = B → ∀ bet ∈ betas, bet ≠ []) :
    countEps (expandRule betas B rule) ≤ countEps [rule] := by
  cases rule with
  | nil => simp [expandRule_nil, countEps_cons, countEps_nil]
  | cons s rest =>
    rw [expandRule_cons]
    by_cases hs : s = B
    · rw [if_pos hs]
      have h0 : countEps (betas.map (fun beta => beta ++ rest)) = 0 := by
        refine countEps_eq_zero.mpr ?_
        intro hmem
        rcases List.mem_map.mp hmem with ⟨bet, hbet, heq⟩
        rcases List.append_eq_nil.mp heq with ⟨hb, -⟩
        exact hsafe s rest rfl hs bet hbet hb
      rw [h0]
      simp [countEps_cons, countEps_nil]
    · rw [if_neg hs]

theorem countEps_substLeading_le {betas : List Body} {B : String} {rules : List Body}
    (hsafe : ∀ rule ∈ rules, ∀ s rest, rule = s :: rest → s = B →
      ∀ bet ∈ betas, bet ≠ []) :
    countEps (substLeading betas B rules) ≤ countEps rules := by
  induction rules with
  | nil => simp [substLeading, countEps_nil]
  | cons r rules ih =>
    have hflat : substLeading betas B (r :: rules) =
        expandRule betas B r ++ substLeading betas B rules := by
      unfold substLeading
      simp [List.flatMap_cons]
    rw [hflat, countEps_append, countEps_cons]
    have h1 : countEps (expandRule betas B r) ≤ countEps [r] :=
      countEps_expandRule_le (fun s rest hr hs => hsafe r (List.mem_cons_self _ _) s rest hr hs)
    have h2 := ih (fun rule hr => hsafe rule (List.mem_cons_of_mem _ hr))
    have h3 : countEps [r] = (if r = [] then 1 else 0) := by
      simp [countEps_cons, countEps_nil]
    omega

theorem eps_mem_substLeading {betas : List Body} {B : String} {rules : List Body}
    (hsafe : ∀ rule ∈ rules, ∀ s rest, rule = s :: rest → s = B →
      ∀ bet ∈ betas, bet ≠ [])
    (hmem : ([] : Body) ∈ substLeading betas B rules) : ([] : Body) ∈ rules := by
  obtain ⟨rule, hrule, hexp⟩ := mem_substLeading hmem
  rcases mem_expandRule hexp with ⟨hre, -⟩ | ⟨s, rest, hreq, hcase⟩
  · exact hre ▸ hrule
  · rcases hcase with ⟨hsB, bet, hbet, heq⟩ | ⟨-, heq⟩
    · rcases List.append_eq_nil.mp heq.symm with ⟨hb, -⟩
      exact absurd hb (hsafe rule hrule s rest hreq hsB bet hbet)
    · exact absurd heq.symm (by simp)

theorem epsInv_subst {P0 : PMap} {S : String} {NN : List String} {B : String}
    (hB : B ∈ NN) (hFresh : ∀ A2 ∈ NN, primeName A2 ∉ NN) {st : ElimState}
    (hstInv : ∀ e ∈ st.newP, EpsInvEntry P0 S NN e) {A : String} {rules : List Body}
    (hr : EpsInvRules P0 S NN A rules) :
    EpsInvRules P0 S NN A (substLeading (lookupD st.newP B) B rules) := by
  obtain ⟨hc, he, hs, hv⟩ := hr
  have hsafe : ∀ rule ∈ rules, ∀ s rest, rule = s :: rest → s = B →
      ∀ bet ∈ lookupD st.newP B, bet ≠ [] := by
    intro rule hrule s rest hreq hsB bet hbet hbete
    rcases lookupD_cases st.newP B with hl | hl
    · rw [hl] at hbet
      simp at hbet
    · obtain ⟨-, he2, hs2, hv2⟩ := hstInv _ hl
      subst hbete
      rcases he2 hbet with hBS | hBp
      · simp only at hBS
        by_cases hSin : S ∈ NN ∧ [] ∈ lookupD P0 S
        · refine hs hSin rule hrule ?_
          rw [hreq, hsB, hBS]
          exact List.mem_cons_self _ _
        · have hSNN : S ∈ NN := hBS ▸ hB
          have hnot : [] ∉ lookupD P0 S := fun hmem => hSin ⟨hSNN, hmem⟩
          exact hv2 hnot hSNN hBS hbet
      · obtain ⟨A2, hA2, hBp⟩ := hBp
        simp only at hBp
        exact hFresh A2 hA2 (hBp ▸ hB)
  have hSfree : (S ∈ NN ∧ [] ∈ lookupD P0 S) →
      ∀ b ∈ substLeading (lookupD st.newP B) B rules, S ∉ b := by
    intro hSin b hb hSb
    obtain ⟨rule, hrule, hexp⟩ := mem_substLeading hb
    rcases mem_expandRule hexp with ⟨-, hbe⟩ | ⟨s, rest, hreq, hcase⟩
    · rw [hbe] at hSb
      simp at hSb
    · rcases hcase with ⟨hsB, bet, hbet, heq⟩ | ⟨-, heq⟩
      · rw [heq] at hSb
        rcases List.mem_append.mp hSb with h2 | h2
        · rcases lookupD_cases st.newP B with hl | hl
          · rw [hl] at hbet
            simp at hbet
          · exact (hstInv _ hl).2.2.1 hSin bet hbet h2
        · exact hs hSin rule hrule (hreq ▸ List.mem_cons_of_mem _ h2)
      · rw [heq, ← hreq] at hSb
        exact hs hSin rule hrule hSb
  refine ⟨?_, ?_, ?_, ?_⟩
  · exact le_trans (countEps_substLeading_le hsafe) hc
  · intro hmem
    exact he (eps_mem_substLeading hsafe hmem)
  · exact hSfree
  · intro hnl hSN hAS hmem
    exact hv hnl hSN hAS (eps_mem_substLeading hsafe hmem)

theorem epsInv_current {P0 : PMap} {S : String} {NN : List String}
    (hq1 : ∀ e ∈ P0, [] ∈ e.2 → e.1 = S)
    (hq3 : ∀ e ∈ P0, countEps e.2 ≤ 1)
    (hq2 : [] ∈ lookupD P0 S → ∀ e ∈ P0, ∀ b ∈ e.2, S ∉ b)
    (hFresh : ∀ A2 ∈ NN, primeName A2 ∉ NN) {st : ElimState}
    {processed : List String} {A : String}
    (hproc : ∀ B2 ∈ processed, B2 ∈ NN)
    (hstInv : ∀ e ∈ st.newP, EpsInvEntry P0 S NN e) :
    EpsInvRules P0 S NN A (elimCurrent P0 st processed A) := by
  have hbase : EpsInvRules P0 S NN A (lookupD P0 A) := by
    refine ⟨?_, ?_, ?_, ?_⟩
    · rcases lookupD_cases P0 A with h | h
      · rw [h]
        simp [countEps_nil]
      · exact hq3 _ h
    · intro hmem
      rcases lookupD_cases P0 A with h | h
      · rw [h] at hmem
        simp at hmem
      · exact hq1 _ h hmem
    · intro hSin b hb
      rcases lookupD_cases P0 A with h | h
      · rw [h] at hb
        simp at hb
      · exact hq2 hSin.2 _ h b hb
    · intro hnl _ hAS
      rw [hAS]
      exact hnl
  unfold elimCurrent
  have haux : ∀ (pr : List String), (∀ B2 ∈ pr, B2 ∈ NN) → ∀ rules,
      EpsInvRules P0 S NN A rules →
      EpsInvRules P0 S NN A
        (pr.foldl (fun rules B => substLeading (lookupD st.newP B) B rules) rules) := by
    intro pr
    induction pr with
    | nil => intro _ rules hr; exact hr
    | cons B pr ih =>
      intro hmem rules hr
      rw [List.foldl_cons]
      exact ih (fun B2 h2 => hmem B2 (List.mem_cons_of_mem _ h2)) _
        (epsInv_subst (hmem B (List.mem_cons_self _ _)) hFresh hstInv hr)
  exact haux processed hproc _ hbase

theorem epsInv_step {P0 : PMap} {S : String} {NN : List String}
    (hq1 : ∀ e ∈ P0, [] ∈ e.2 → e.1 = S)
    (hq3 : ∀ e ∈ P0, countEps e.2 ≤ 1)
    (hq2 : [] ∈ lookupD P0 S → ∀ e ∈ P0, ∀ b ∈ e.2, S ∉ b)
    (hFresh : ∀ A2 ∈ NN, primeName A2 ∉ NN) {st : ElimState}
    {processed : List String} {A : String} (hA : A ∈ NN)
    (hproc : ∀ B2 ∈ processed, B2 ∈ NN)
    (hstInv : ∀ e ∈ st.newP, EpsInvEntry P0 S NN e) :
    ∀ e ∈ (elimStepA P0 st processed A).newP, EpsInvEntry P0 S NN e := by
  obtain ⟨hc, he, hs, hv⟩ := epsInv_current hq1 hq3 hq2 hFresh hproc hstInv (A := A)
  have hApNN : primeName A ∉ NN := hFresh A hA
  unfold elimStepA
  split
  · intro e hemem
    simp only at hemem
    rcases mem_setKey hemem with h2 | h2
    · rcases mem_setKey h2 with h3 | h3
      · exact hstInv e h3
      · rw [h3]
        have hne : ∀ b2 ∈ (elimBeta P0 st processed A).map
            (fun b => b ++ [primeName A]), b2 ≠ [] := by
          intro b2 hb2
          rcases List.mem_map.mp hb2 with ⟨b0, -, heq⟩
          rw [← heq]
          simp
        refine ⟨?_, ?_, ?_, ?_⟩
        · rw [countEps_eq_zero.mpr (fun hmem => hne [] hmem rfl)]
          omega
        · intro hmem
          exact absurd rfl (hne [] hmem)
        · intro hSin b hb hSb
          simp only at hb
          rcases List.mem_map.mp hb with ⟨b0, hb0, heq⟩
          rw [← heq] at hSb
          rcases List.mem_append.mp hSb with hS2 | hS2
          · exact hs hSin b0 (List.mem_of_mem_filter hb0) hS2
          · have : S = primeName A := by simpa using hS2
            exact hApNN (this ▸ hSin.1)
        · intro _ _ _ hmem
          exact absurd rfl (hne [] hmem)
    · rw [h2]
      have hane : ∀ b2 ∈ (elimAlpha P0 st processed A).map
          (fun a => a.tail ++ [primeName A]), b2 ≠ [] := by
        intro b2 hb2
        rcases List.mem_map.mp hb2 with ⟨a0, -, heq⟩
        rw [← heq]
        simp
      refine ⟨?_, ?_, ?_, ?_⟩
      · simp only [countEps_append]
        rw [countEps_eq_zero.mpr (fun hmem => hane [] hmem rfl)]
        simp [countEps_cons, countEps_nil]
      · intro _
        exact Or.inr ⟨A, hA, rfl⟩
      · intro hSin b hb hSb
        simp only at hb
        rcases List.mem_append.mp hb with hb2 | hb2
        · rcases List.mem_map.mp hb2 with ⟨a0, ha0, heq⟩
          rw [← heq] at hSb
          rcases List.mem_append.mp hSb with hS2 | hS2
          · exact hs hSin a0 (List.mem_of_mem_filter ha0) (List.mem_of_mem_tail hS2)
          · have : S = primeName A := by simpa using hS2
            exact hApNN (this ▸ hSin.1)
        · have : b = [] := by simpa using hb2
          rw [this] at hSb
          simp at hSb
      · intro _ hSN heq
        simp only at heq
        exact absurd (heq ▸ hSN) hApNN
  · intro e hemem
    simp only at hemem
    rcases mem_setKey hemem with h2 | h2
    · exact hstInv e h2
    · rw [h2]
      exact ⟨hc, fun hmem => Or.inl (he hmem), hs, fun hnl hSN hAS => hv hnl hSN hAS⟩

theorem epsInv_loop {P0 : PMap} {S : String} {NN : List String}
    (hq1 : ∀ e ∈ P0, [] ∈ e.2 → e.1 = S)
    (hq3 : ∀ e ∈ P0, countEps e.2 ≤ 1)
    (hq2 : [] ∈ lookupD P0 S → ∀ e ∈ P0, ∀ b ∈ e.2, S ∉ b)
    (hFresh : ∀ A2 ∈ NN, primeName A2 ∉ NN) :
    ∀ (todo : List String) (st : ElimState) (processed : List String),
      (∀ B2 ∈ todo, B2 ∈ NN) → (∀ B2 ∈ processed, B2 ∈ NN) →
      (∀ e ∈ st.newP, EpsInvEntry P0 S NN e) →
      ∀ e ∈ (elimLoop P0 st processed todo).newP, EpsInvEntry P0 S NN e := by
  intro todo
  induction todo with
  | nil =>
    intro st processed _ _ hstInv
    rw [elimLoop_nil]
    exact hstInv
  | cons A rest ih =>
    intro st processed htodo hproc hstInv
    rw [elimLoop_cons]
    refine ih _ _ (fun B2 h2 => htodo B2 (List.mem_cons_of_mem _ h2)) ?_ ?_
    · intro B2 h2
      rcases List.mem_append.mp h2 with h3 | h3
      · exact hproc B2 h3
      · have : B2 = A := by simpa using h3
        exact this ▸ htodo A (List.mem_cons_self _ _)
    · exact epsInv_step hq1 hq3 hq2 hFresh (htodo A (List.mem_cons_self _ _)) hproc hstInv

theorem elim_eps_placement {Q : CFG}
    (hq1 : ∀ e ∈ Q.P, [] ∈ e.2 → e.1 = Q.S)
    (hq3 : ∀ e ∈ Q.P, countEps e.2 ≤ 1)
    (hq2 : [] ∈ lookupD Q.P Q.S → ∀ e ∈ Q.P, ∀ b ∈ e.2, Q.S ∉ b)
    (hFresh : ∀ A2 ∈ Q.N, primeName A2 ∉ Q.N) :
    ∀ e ∈ (eliminate_left_recursion Q).P,
      countEps e.2 ≤ 1 ∧ ([] ∈ e.2 → e.1 = Q.S ∨ IsPrimeOf Q.N e.1) := by
  intro e he
  have hinit : ∀ e2 ∈ (dedupFirst Q.N).map (fun nt => (nt, ([] : List Body))),
      EpsInvEntry Q.P Q.S Q.N e2 := by
    intro e2 he2
    rcases List.mem_map.mp he2 with ⟨nt, -, heq⟩
    rw [← heq]
    exact ⟨by simp [countEps_nil], by simp, by simp, by simp⟩
  have h := epsInv_loop hq1 hq3 hq2 hFresh (dedupFirst Q.N)
    ⟨(dedupFirst Q.N).map (fun nt => (nt, [])), Q.N⟩ []
    (fun B2 h2 => (mem_dedupFirst Q.N B2).mp h2) (by simp) hinit e he
  exact ⟨h.1, h.2.1⟩

/-! Leading-symbol invariants through the left-recursion loop. -/

theorem nodup_middle {d : List String} {b : String} {r : List String}
    (h : (d ++ b :: r).Nodup) : b ∉ d ∧ b ∉ r := by
  induction d with
  | nil =>
    rcases List.nodup_cons.mp h with ⟨hb, -⟩
    exact ⟨by simp, hb⟩
  | cons x xs ih =>
    rw [List.cons_append, List.nodup_cons] at h
    obtain ⟨hx, h2⟩ := h
    obtain ⟨h3, h4⟩ := ih h2
    refine ⟨?_, h4⟩
    intro hmem
    rcases List.mem_cons.mp hmem with h5 | h5
    · exact hx (h5 ▸ List.mem_append_right _ (List.mem_cons_self _ _))
    · exact h3 h5

theorem lr_substFold {G : CFG} {st : ElimState} {A : String} {r : List String} :
    ∀ (todo d : List String) (rules : List Body),
      dedupFirst G.N = d ++ (todo ++ A :: r) →
      (∀ B ∈ todo, ∀ bs, (B, bs) ∈ st.newP →
        ∀ b ∈ bs, BodyInv G (afterFirst (dedupFirst G.N) B) b) →
      (∀ b ∈ rules, BodyInv G (todo ++ A :: r) b) →
      ∀ b ∈ todo.foldl (fun rules B => substLeading (lookupD st.newP B) B rules) rules,
        BodyInv G (A :: r) b := by
  intro todo
  induction todo with
  | nil =>
    intro d rules _ _ hrules
    simpa using hrules
  | cons B todo2 ih =>
    intro d rules hshape hfin hrules
    rw [List.foldl_cons]
    have hBnotd : B ∉ d := by
      have hnd : (d ++ B :: (todo2 ++ A :: r)).Nodup := by
        have := nodup_dedupFirst G.N
        rw [hshape] at this
        simpa using this
      exact (nodup_middle hnd).1
    have hafter : afterFirst (dedupFirst G.N) B = todo2 ++ A :: r := by
      rw [hshape]
      have : d ++ (B :: todo2 ++ A :: r) = d ++ B :: (todo2 ++ A :: r) := by simp
      rw [show (d ++ (B :: todo2 ++ A :: r) : List String) =
        d ++ B :: (todo2 ++ A :: r) from by simp]
      exact afterFirst_append hBnotd
    refine ih (d ++ [B]) _ (by rw [hshape]; simp) ?_ ?_
    · intro B2 hB2 bs hbs b hb
      exact hfin B2 (List.mem_cons_of_mem _ hB2) bs hbs b hb
    · intro b hb
      obtain ⟨rule, hrule, hexp⟩ := mem_substLeading hb
      obtain ⟨s, t, hreq, hhead, hclosed, hJ⟩ := hrules rule hrule
      rw [hreq, expandRule_cons] at hexp
      by_cases hsB : s = B
      · rw [if_pos hsB] at hexp
        rcases List.mem_map.mp hexp with ⟨bet, hbet, hbeq⟩
        subst hsB
        rcases lookupD_cases st.newP s with hl | hl
        · rw [hl] at hbet
          simp at hbet
        · have hbetInv := hfin s (List.mem_cons_self _ _) _ hl bet hbet
          rw [hafter] at hbetInv
          obtain ⟨s3, t3, hbet3, hhead3, hclosed3, hJ3⟩ := hbetInv
          refine ⟨s3, t3 ++ t, by rw [← hbeq, hbet3]; simp, hhead3, ?_, ?_⟩
          · intro x hx
            rw [← hbeq] at hx
            rcases List.mem_append.mp hx with hx2 | hx2
            · exact hclosed3 x hx2
            · exact hclosed x (hreq ▸ List.mem_cons_of_mem _ hx2)
          · intro hs3N
            obtain ⟨y, u, ht3, hy⟩ := hJ3 hs3N
            exact ⟨y, u ++ t, by rw [ht3]; simp, hy⟩
      · rw [if_neg hsB] at hexp
        have hbeq : b = s :: t := by simpa using hexp
        refine ⟨s, t, hbeq, ?_, ?_, hJ⟩
        · rcases hhead with h2 | h2
          · exact Or.inl h2
          · rcases List.mem_cons.mp h2 with h3 | h3
            · exact absurd h3 hsB
            · exact Or.inr h3
        · intro x hx
          exact hclosed x (hreq ▸ (hbeq ▸ hx))

theorem lr_base {G : CFG} (hEps : EpsFree G) (hUnit : NoUnitNT G)
    (hClosed : SymbolsClosed G) {A : String} :
    ∀ b ∈ lookupD G.P A, BodyInv G (dedupFirst G.N) b := by
  intro b hb
  rcases lookupD_cases G.P A with hl | hl
  · rw [hl] at hb
    simp at hb
  · have hbne : b ≠ [] := hEps _ hl b hb
    obtain ⟨s, t, hbeq⟩ := List.exists_cons_of_ne_nil hbne
    have hclosed : ∀ x ∈ b, x ∈ G.Sigma ∨ x ∈ G.N :=
      fun x hx => hClosed _ hl b hb x hx
    refine ⟨s, t, hbeq, ?_, ?_, ?_⟩
    · rcases hclosed s (hbeq ▸ List.mem_cons_self _ _) with h2 | h2
      · exact Or.inl h2
      · exact Or.inr ((mem_dedupFirst G.N s).mpr h2)
    · intro x hx
      rcases hclosed x hx with h2 | h2
      · exact Or.inl h2
      · exact Or.inr (Or.inl h2)
    · intro hsN
      have htne : t ≠ [] := by
        intro hte
        exact hUnit _ hl b hb s hsN (by rw [hbeq, hte])
      obtain ⟨y, u, hteq⟩ := List.exists_cons_of_ne_nil htne
      refine ⟨y, u, hteq, ?_⟩
      exact hclosed y (by rw [hbeq, hteq]; simp)

theorem lr_current {G : CFG} (hEps : EpsFree G) (hUnit : NoUnitNT G)
    (hClosed : SymbolsClosed G) {st : ElimState} {A : String} {p r : List String}
    (hshape : dedupFirst G.N = p ++ A :: r)
    (hfin : ∀ B ∈ p, ∀ bs, (B, bs) ∈ st.newP →
      ∀ b ∈ bs, BodyInv G (afterFirst (dedupFirst G.N) B) b) :
    ∀ b ∈ elimCurrent G.P st p A, BodyInv G (A :: r) b := by
  unfold elimCurrent
  refine lr_substFold p [] (lookupD G.P A) (by simpa using hshape) hfin ?_
  intro b hb
  have h := lr_base hEps hUnit hClosed b hb
  obtain ⟨s, t, hbeq, hhead, hclosed, hJ⟩ := h
  refine ⟨s, t, hbeq, ?_, hclosed, hJ⟩
  rcases hhead with h2 | h2
  · exact Or.inl h2
  · rw [hshape] at h2
    exact Or.inr (by simpa using h2)

theorem filter_nil_false {α : Type} {l : List α} {p : α → Bool}
    (h : l.filter p = []) : ∀ a ∈ l, p a = false := by
  induction l with
  | nil => simp
  | cons a l ih =>
    intro x hx
    cases hp : p a
    · rw [List.filter_cons, if_neg (by simp [hp])] at h
      rcases List.mem_cons.mp hx with hx2 | hx2
      · exact hx2 ▸ hp
      · exact ih h x hx2
    · rw [List.filter_cons, if_pos (by simp [hp])] at h
      simp at h

theorem lr_step {G : CFG} (hEps : EpsFree G) (hUnit : NoUnitNT G)
    (hClosed : SymbolsClosed G) (hFresh : FreshPrimes G) {st : ElimState}
    {p : List String} {A : String} {r : List String}
    (hshape : dedupFirst G.N = p ++ A :: r)
    (hstInv : ∀ e ∈ st.newP, LRInvEntry G p (A :: r) e) :
    ∀ e ∈ (elimStepA G.P st p A).newP, LRInvEntry G (p ++ [A]) r e := by
  have hnd := nodup_dedupFirst G.N
  have hndshape : (p ++ A :: r).Nodup := hshape ▸ hnd
  obtain ⟨hAnp, hAnr⟩ := nodup_middle hndshape
  have hA_ord : A ∈ dedupFirst G.N := by
    rw [hshape]
    simp
  have hAN : A ∈ G.N := (mem_dedupFirst G.N A).mp hA_ord
  have hafterA : afterFirst (dedupFirst G.N) A = r := by
    rw [hshape]
    exact afterFirst_append hAnp
  have hApN : primeName A ∉ G.N := (hFresh A hAN).1
  have hfin : ∀ B ∈ p, ∀ bs, (B, bs) ∈ st.newP →
      ∀ b ∈ bs, BodyInv G (afterFirst (dedupFirst G.N) B) b := by
    intro B hB bs hbs b hb
    exact (hstInv _ hbs).2.1 hB b hb
  have hcur := lr_current hEps hUnit hClosed hshape hfin
  have hold : ∀ e ∈ st.newP, LRInvEntry G (p ++ [A]) r e := by
    intro e he
    obtain ⟨h1, h2, h3, h4⟩ := hstInv e he
    refine ⟨h1, ?_, ?_, h4⟩
    · intro hmem b hb
      rcases List.mem_append.mp hmem with hm | hm
      · exact h2 hm b hb
      · have heA : e.1 = A := by simpa using hm
        have h5 : e.1 ∈ A :: r := by
          rw [heA]
          exact List.mem_cons_self _ _
        rw [h3 h5] at hb
        simp at hb
    · intro hmem
      exact h3 (List.mem_cons_of_mem _ hmem)
  unfold elimStepA
  split
  · intro e he
    simp only at he
    rcases mem_setKey he with h2 | h2
    · rcases mem_setKey h2 with h3 | h3
      · exact hold e h3
      · rw [h3]
        refine ⟨Or.inl hA_ord, ?_, ?_, ?_⟩
        · intro _ b hb
          simp only at hb ⊢
          rw [hafterA]
          rcases List.mem_map.mp hb with ⟨b0, hb0, hbeq⟩
          have hb0mem : b0 ∈ elimCurrent G.P st p A := List.mem_of_mem_filter hb0
          have hb0head : ¬ b0.head? = some A :=
            of_decide_eq_true (List.mem_filter.mp hb0).2
          obtain ⟨s, t, hb0eq, hhead, hclosed, hJ⟩ := hcur b0 hb0mem
          have hsA : s ≠ A := by
            intro hsa
            apply hb0head
            rw [hb0eq, hsa]
            rfl
          refine ⟨s, t ++ [primeName A], by rw [← hbeq, hb0eq]; simp, ?_, ?_, ?_⟩
          · rcases hhead with h4 | h4
            · exact Or.inl h4
            · rcases List.mem_cons.mp h4 with h5 | h5
              · exact absurd h5 hsA
              · exact Or.inr h5
          · intro x hx
            rw [← hbeq] at hx
            rcases List.mem_append.mp hx with hx2 | hx2
            · exact hclosed x (hb0eq ▸ hx2)
            · have hxp : x = primeName A := by simpa using hx2
              exact Or.inr (Or.inr ⟨A, hAN, hxp⟩)
          · intro hsN
            obtain ⟨y, u, hteq, hy⟩ := hJ hsN
            exact ⟨y, u ++ [primeName A], by rw [hteq]; simp, hy⟩
        · intro hmem
          simp only at hmem
          exact absurd hmem hAnr
        · intro hprime
          exfalso
          obtain ⟨A2, hA2, heq⟩ := hprime
          simp only at heq
          exact (hFresh A2 hA2).1 (heq ▸ hAN)
    · rw [h2]
      refine ⟨Or.inr ⟨A, hAN, rfl⟩, ?_, ?_, ?_⟩
      · intro hmem
        exfalso
        simp only at hmem
        rcases List.mem_append.mp hmem with hm | hm
        · have hmo : primeName A ∈ dedupFirst G.N := by
            rw [hshape]
            exact List.mem_append_left _ hm
          exact hApN ((mem_dedupFirst _ _).mp hmo)
        · have hq : primeName A = A := by simpa using hm
          exact hApN (by rw [hq]; exact hAN)
      · intro hmem
        exfalso
        simp only at hmem
        have hmo : primeName A ∈ dedupFirst G.N := by
          rw [hshape]
          exact List.mem_append_right _ (List.mem_cons_of_mem _ hmem)
        exact hApN ((mem_dedupFirst _ _).mp hmo)
      · intro _ b hb
        simp only at hb
        rcases List.mem_append.mp hb with hb2 | hb2
        · rcases List.mem_map.mp hb2 with ⟨a0, ha0, hbeq⟩
          right
          have ha0mem : a0 ∈ elimCurrent G.P st p A := List.mem_of_mem_filter ha0
          have ha0head : a0.head? = some A :=
            of_decide_eq_true (List.mem_filter.mp ha0).2
          obtain ⟨s, t, ha0eq, hhead, hclosed, hJ⟩ := hcur a0 ha0mem
          have hsA : s = A := by
            rw [ha0eq] at ha0head
            simpa using ha0head
          obtain ⟨y, u, hteq, hy⟩ := hJ (hsA ▸ hAN)
          refine ⟨y, u ++ [primeName A], ?_, hy⟩
          rw [← hbeq, ha0eq, hteq]
          simp
        · left
          simpa using hb2
  · rename_i halpha
    have halphaE : elimAlpha G.P st p A = [] := not_not.mp halpha
    intro e he
    simp only at he
    rcases mem_setKey he with h2 | h2
    · exact hold e h2
    · rw [h2]
      refine ⟨Or.inl hA_ord, ?_, ?_, ?_⟩
      · intro _ b hb
        simp only at hb ⊢
        rw [hafterA]
        have hnothead : ∀ b2 ∈ elimCurrent G.P st p A, ¬ b2.head? = some A := by
          intro b2 hb2 hh
          have := filter_nil_false halphaE b2 hb2
          rw [decide_eq_false_iff_not] at this
          exact this hh
        obtain ⟨s, t, hbeq, hhead, hclosed, hJ⟩ := hcur b hb
        have hsA : s ≠ A := by
          intro hsa
          exact hnothead b hb (by rw [hbeq, hsa]; rfl)
        refine ⟨s, t, hbeq, ?_, hclosed, hJ⟩
        rcases hhead with h4 | h4
        · exact Or.inl h4
        · rcases List.mem_cons.mp h4 with h5 | h5
          · exact absurd h5 hsA
          · exact Or.inr h5
      · intro hmem
        simp only at hmem
        exact absurd hmem hAnr
      · intro hprime
        exfalso
        obtain ⟨A2, hA2, heq⟩ := hprime
        simp only at heq
        exact (hFresh A2 hA2).1 (heq ▸ hAN)

theorem lr_loop {G : CFG} (hEps : EpsFree G) (hUnit : NoUnitNT G)
    (hClosed : SymbolsClosed G) (hFresh : FreshPrimes G) :
    ∀ (todo : List String) (st : ElimState) (p : List String),
      dedupFirst G.N = p ++ todo →
      (∀ e ∈ st.newP, LRInvEntry G p todo e) →
      ∀ e ∈ (elimLoop G.P st p todo).newP, LRInvEntry G (dedupFirst G.N) [] e := by
  intro todo
  induction todo with
  | nil =>
    intro st p hshape hstInv
    rw [elimLoop_nil]
    have hpd : dedupFirst G.N = p := by simpa using hshape
    rw [hpd]
    exact hstInv
  | cons A rest ih =>
    intro st p hshape hstInv
    rw [elimLoop_cons]
    refine ih (elimStepA G.P st p A) (p ++ [A]) (by rw [hshape]; simp) ?_
    exact lr_step hEps hUnit hClosed hFresh hshape hstInv

theorem lr_final {G : CFG} (hEps : EpsFree G) (hUnit : NoUnitNT G)
    (hClosed : SymbolsClosed G) (hFresh : FreshPrimes G) :
    ∀ e ∈ (eliminate_left_recursion G).P,
      (e.1 ∈ dedupFirst G.N ∨ IsPrimeOf G.N e.1) ∧
      (e.1 ∈ dedupFirst G.N →
        ∀ b ∈ e.2, BodyInv G (afterFirst (dedupFirst G.N) e.1) b) ∧
      (IsPrimeOf G.N e.1 → ∀ b ∈ e.2, b = [] ∨ PrimeBody G b) := by
  intro e he
  have hinit : ∀ e2 ∈ (dedupFirst G.N).map (fun nt => (nt, ([] : List Body))),
      LRInvEntry G [] (dedupFirst G.N) e2 := by
    intro e2 he2
    rcases List.mem_map.mp he2 with ⟨nt, hnt, heq⟩
    rw [← heq]
    exact ⟨Or.inl hnt, by intro h; simp at h, fun _ => rfl,
      by intro _ b hb; simp at hb⟩
  have h := lr_loop hEps hUnit hClosed hFresh (dedupFirst G.N)
    ⟨(dedupFirst G.N).map (fun nt => (nt, [])), G.N⟩ [] (by simp) hinit e he
  obtain ⟨h1, h2, h3, h4⟩ := h
  exact ⟨h1, h2, h4⟩

theorem lchain_from_nil {P : PMap} {w : List String} (h : LChain P [] w) : w = [] := by
  rcases Relation.ReflTransGen.cases_head h with h2 | ⟨c, hstep, -⟩
  · exact h2.symm
  · obtain ⟨B, rest, bodies, bet, habs, -⟩ := hstep
    simp at habs

theorem lr_chain_step {G : CFG} (hDisj : NSigmaDisjoint G) (hFresh : FreshPrimes G)
    (hF : ∀ e ∈ (eliminate_left_recursion G).P,
      (e.1 ∈ dedupFirst G.N ∨ IsPrimeOf G.N e.1) ∧
      (e.1 ∈ dedupFirst G.N →
        ∀ b ∈ e.2, BodyInv G (afterFirst (dedupFirst G.N) e.1) b) ∧
      (IsPrimeOf G.N e.1 → ∀ b ∈ e.2, b = [] ∨ PrimeBody G b))
    {w w2 : List String} (hstep : LStep (eliminate_left_recursion G).P w w2)
    {s : String} {t : List String} (hw : w = s :: t)
    (hs : s ∈ G.Sigma ∨ s ∈ dedupFirst G.N) :
    ∃ s2 t2, w2 = s2 :: t2 ∧
      (s2 ∈ G.Sigma ∨ s2 ∈ afterFirst (dedupFirst G.N) s) ∧
      s ∈ dedupFirst G.N := by
  obtain ⟨B, rest, bodies, bet, hweq, hentry, hbet, hw2⟩ := hstep
  rw [hw] at hweq
  have hsB : s = B := (List.cons.injEq _ _ _ _ ▸ hweq).1
  have htr : t = rest := (List.cons.injEq _ _ _ _ ▸ hweq).2
  subst hsB
  obtain ⟨hk, horig, -⟩ := hF _ hentry
  rcases hs with hsSig | hsOrd
  · exfalso
    rcases hk with hk | hk
    · exact hDisj s ((mem_dedupFirst _ _).mp hk) hsSig
    · obtain ⟨A2, hA2, heq⟩ := hk
      simp only at heq
      exact (hFresh A2 hA2).2 (by rw [← heq]; exact hsSig)
  · have hbetInv := horig hsOrd bet hbet
    obtain ⟨s2, t2, hbeteq, hhead, -, -⟩ := hbetInv
    exact ⟨s2, t2 ++ rest, by rw [hw2, hbeteq]; simp, hhead, hsOrd⟩

theorem lr_chain_orig_inv {G : CFG} (hDisj : NSigmaDisjoint G) (hFresh : FreshPrimes G)
    (hF : ∀ e ∈ (eliminate_left_recursion G).P,
      (e.1 ∈ dedupFirst G.N ∨ IsPrimeOf G.N e.1) ∧
      (e.1 ∈ dedupFirst G.N →
        ∀ b ∈ e.2, BodyInv G (afterFirst (dedupFirst G.N) e.1) b) ∧
      (IsPrimeOf G.N e.1 → ∀ b ∈ e.2, b = [] ∨ PrimeBody G b))
    {H : String} {w w2 : List String}
    (hchain : LChain (eliminate_left_recursion G).P w w2)
    (hw : ∃ s t, w = s :: t ∧ (s ∈ G.Sigma ∨ s ∈ afterFirst (dedupFirst G.N) H)) :
    ∃ s t, w2 = s :: t ∧ (s ∈ G.Sigma ∨ s ∈ afterFirst (dedupFirst G.N) H) := by
  have hnd := nodup_dedupFirst G.N
  induction hchain with
  | refl => exact hw
  | tail hc hstep ih =>
    obtain ⟨s, t, hweq, hs⟩ := ih
    have hs2 : s ∈ G.Sigma ∨ s ∈ dedupFirst G.N :=
      hs.imp id (fun h => afterFirst_subset _ _ h)
    obtain ⟨s2, t2, hw2eq, hhead2, hsOrd⟩ :=
      lr_chain_step hDisj hFresh hF hstep hweq hs2
    refine ⟨s2, t2, hw2eq, ?_⟩
    rcases hhead2 with h2 | h2
    · exact Or.inl h2
    · rcases hs with hsSig | hsAft
      · exact absurd hsSig (hDisj s ((mem_dedupFirst _ _).mp hsOrd))
      · exact Or.inr (afterFirst_trans hnd hsAft h2)

theorem lr_chain_any_inv {G : CFG} (hDisj : NSigmaDisjoint G) (hFresh : FreshPrimes G)
    (hF : ∀ e ∈ (eliminate_left_recursion G).P,
      (e.1 ∈ dedupFirst G.N ∨ IsPrimeOf G.N e.1) ∧
      (e.1 ∈ dedupFirst G.N →
        ∀ b ∈ e.2, BodyInv G (afterFirst (dedupFirst G.N) e.1) b) ∧
      (IsPrimeOf G.N e.1 → ∀ b ∈ e.2, b = [] ∨ PrimeBody G b))
    {w w2 : List String}
    (hchain : LChain (eliminate_left_recursion G).P w w2)
    (hw : ∃ s t, w = s :: t ∧ (s ∈ G.Sigma ∨ s ∈ dedupFirst G.N)) :
    ∃ s t, w2 = s :: t ∧ (s ∈ G.Sigma ∨ s ∈ dedupFirst G.N) := by
  induction hchain with
  | refl => exact hw
  | tail hc hstep ih =>
    obtain ⟨s, t, hweq, hs⟩ := ih
    obtain ⟨s2, t2, hw2eq, hhead2, -⟩ := lr_chain_step hDisj hFresh hF hstep hweq hs
    refine ⟨s2, t2, hw2eq, ?_⟩
    rcases hhead2 with h2 | h2
    · exact Or.inl h2
    · exact Or.inr (afterFirst_subset _ _ h2)

/-! Claim theorems. -/

/-- Claim C6: a nonterminal is in find_nullable of a grammar exactly when it
derives the empty string in zero or more rewrite steps under the grammar's
productions. -/
theorem claim_C6 (G : CFG) (A : String) :
    A ∈ find_nullable G ↔ Derives G.P [A] [] :=
  nullable_iff G A

/-- Claim C9: the fixed-point iteration of find_nullable terminates: the
result is a fixed point of the full pass, and any fuel beyond one pass per
production entry plus one computes the same result, so the computation is a
total function of the grammar. -/
theorem claim_C9 (G : CFG) :
    nullStep G.P (find_nullable G) = find_nullable G ∧
    ∀ k, nullIter G.P (G.P.length + 1 + k) [] = find_nullable G :=
  ⟨find_nullable_fix G,
   fun k => nullIter_fuel_add G.P (G.P.length + 1) k [] (find_nullable_fix G)⟩

/-- Claim C5: in the output of remove_epsilon_rules, no head other than the
start symbol has an empty production body. -/
theorem claim_C5 (G : CFG) (e : String × List Body)
    (he : e ∈ (remove_epsilon_rules G).P) (hne : e.1 ≠ G.S) : [] ∉ e.2 :=
  epsP2_no_eps he hne

theorem claim_C5_witness : ([] : Body) ∉ [["A", "b"], ["b"]] :=
  claim_C5 gIndirect ("B", [["A", "b"], ["b"]]) (by decide) (by decide)

/-- Claim C10: remove_epsilon_rules preserves the nonterminal collection,
the terminal set, the start symbol, and the key list of the production map
of a well-formed grammar. -/
theorem claim_C10 (G : CFG) (hwf : WellFormed G) :
    (remove_epsilon_rules G).N = G.N ∧ (remove_epsilon_rules G).Sigma = G.Sigma ∧
    (remove_epsilon_rules G).S = G.S ∧
    (remove_epsilon_rules G).P.map Prod.fst = G.P.map Prod.fst :=
  ⟨rfl, rfl, rfl, epsP2_keys G⟩

theorem claim_C10_witness :
    (remove_epsilon_rules gIndirect).P.map Prod.fst = gIndirect.P.map Prod.fst :=
  (claim_C10 gIndirect (by decide)).2.2.2

/-- Claim C3: for a well-formed grammar, the output of remove_epsilon_rules
has an empty body at the start symbol exactly when the start symbol is
nullable in the input grammar and the start symbol occurs in no production
body of the output. -/
theorem claim_C3 (G : CFG) (hwf : WellFormed G) :
    [] ∈ lookupD (remove_epsilon_rules G).P G.S ↔
      (Derives G.P [G.S] [] ∧
        ∀ e ∈ (remove_epsilon_rules G).P, ∀ b ∈ e.2, G.S ∉ b) := by
  have h := epsP2_eps_S_iff hwf
  constructor
  · intro hmem
    obtain ⟨h1, h2⟩ := h.mp hmem
    exact ⟨(nullable_iff G G.S).mp h1, h2⟩
  · intro ⟨h1, h2⟩
    exact h.mpr ⟨(nullable_iff G G.S).mpr h1, h2⟩

theorem claim_C3_witness :
    [] ∈ lookupD (remove_epsilon_rules gDirect).P gDirect.S ↔
      (Derives gDirect.P [gDirect.S] [] ∧
        ∀ e ∈ (remove_epsilon_rules gDirect).P, ∀ b ∈ e.2, gDirect.S ∉ b) :=
  claim_C3 gDirect (by decide)

/-- Claim C7: remove_epsilon_rules and eliminate_left_recursion both
preserve the invariant that every symbol occurring in a production body of
the result is a terminal or a nonterminal of the result. -/
theorem claim_C7 (G : CFG) (hc : SymbolsClosed G) :
    SymbolsClosed (remove_epsilon_rules G) ∧
    SymbolsClosed (eliminate_left_recursion G) :=
  ⟨remove_symbols_closed hc, eliminate_symbols_closed hc⟩

theorem claim_C7_witness :
    SymbolsClosed (remove_epsilon_rules gIndirect) ∧
    SymbolsClosed (eliminate_left_recursion gIndirect) :=
  claim_C7 gIndirect (by decide)

/-- Claim C8: eliminate_left_recursion of a well-formed grammar keeps the
terminal set and the start symbol, keeps every input nonterminal, and grows
the nonterminal collection only by primed forms of input nonterminals, by
at most one per distinct input nonterminal. -/
theorem claim_C8 (G : CFG) (hwf : WellFormed G) :
    (eliminate_left_recursion G).Sigma = G.Sigma ∧
    (eliminate_left_recursion G).S = G.S ∧
    (∀ x ∈ G.N, x ∈ (eliminate_left_recursion G).N) ∧
    (∀ x ∈ (eliminate_left_recursion G).N, x ∈ G.N ∨ ∃ A ∈ G.N, x = primeName A) ∧
    (eliminate_left_recursion G).N.length ≤ G.N.length + (dedupFirst G.N).length := by
  obtain ⟨h1, h2, h3⟩ := eliminate_N_facts G
  exact ⟨rfl, rfl, fun x hx => h1 hx, h2, h3⟩

theorem claim_C8_witness :
    (eliminate_left_recursion gDirect).Sigma = gDirect.Sigma ∧
    "A" ∈ (eliminate_left_recursion gDirect).N :=
  ⟨(claim_C8 gDirect (by decide)).1,
   (claim_C8 gDirect (by decide)).2.2.1 "A" (by decide)⟩

/-- Claim C1, counterexample to the claim as stated: on the grammar with
productions A to A a or b (start A), the composed pipeline returns a
grammar in which the introduced primed nonterminal, which is distinct from
the start symbol, has an empty body. -/
theorem claim_C1_cex :
    (primeName "A", [["a", primeName "A"], ([] : Body)]) ∈
        (eliminate_left_recursion (remove_epsilon_rules gDirect)).P ∧
      primeName "A" ≠ gDirect.S ∧
      ([] : Body) ∈ [["a", primeName "A"], ([] : Body)] := by
  refine ⟨by decide, by decide, by decide⟩

/-- Claim C1 as amended: for every grammar whose primed names are fresh,
every head of the composed pipeline output has at most one empty body, and
an empty body occurs only at the start symbol or at an introduced primed
nonterminal. -/
theorem claim_C1_amended (G : CFG) (hFresh : ∀ A ∈ G.N, primeName A ∉ G.N) :
    ∀ e ∈ (eliminate_left_recursion (remove_epsilon_rules G)).P,
      countEps e.2 ≤ 1 ∧
      ([] ∈ e.2 → e.1 = G.S ∨ ∃ A ∈ G.N, e.1 = primeName A) := by
  have hq1 : ∀ e ∈ (remove_epsilon_rules G).P, [] ∈ e.2 → e.1 = (remove_epsilon_rules G).S := by
    intro e he hmem
    by_contra hne
    exact epsP2_no_eps he hne hmem
  have hq3 : ∀ e ∈ (remove_epsilon_rules G).P, countEps e.2 ≤ 1 :=
    fun e he => epsP2_count_eps he
  have hq2 : [] ∈ lookupD (remove_epsilon_rules G).P (remove_epsilon_rules G).S →
      ∀ e ∈ (remove_epsilon_rules G).P, ∀ b ∈ e.2, (remove_epsilon_rules G).S ∉ b :=
    fun h => epsP2_eps_S_no_S h
  have h := elim_eps_placement hq1 hq3 hq2
    (by intro A2 hA2; exact hFresh A2 hA2)
  intro e he
  obtain ⟨h1, h2⟩ := h e he
  refine ⟨h1, fun hmem => ?_⟩
  rcases h2 hmem with h3 | ⟨A, hA, h3⟩
  · exact Or.inl h3
  · exact Or.inr ⟨A, hA, h3⟩

theorem claim_C1_witness :
    countEps [["a", primeName "A"], ([] : Body)] ≤ 1 ∧
      (([] : Body) ∈ [["a", primeName "A"], ([] : Body)] →
        primeName "A" = gDirect.S ∨ ∃ A ∈ gDirect.N, primeName "A" = primeName A) :=
  claim_C1_amended gDirect (by decide)
    (primeName "A", [["a", primeName "A"], ([] : Body)]) (by decide)

/-- Claim C2, counterexample to the claim as stated: on the epsilon-free
grammar with productions A to A or b, the output of
eliminate_left_recursion gives the introduced primed nonterminal a
production whose body begins with that primed nonterminal itself, a direct
left recursion reached by the empty substitution chain. -/
theorem claim_C2_cex :
    EpsFree gSelfUnit ∧
    (primeName "A", [[primeName "A"], ([] : Body)]) ∈
        (eliminate_left_recursion gSelfUnit).P ∧
    [primeName "A"] ∈ [[primeName "A"], ([] : Body)] ∧
    LChain (eliminate_left_recursion gSelfUnit).P [primeName "A"] [primeName "A"] ∧
    ([primeName "A"] : List String).head? = some (primeName "A") :=
  ⟨by decide, by decide, by decide, Relation.ReflTransGen.refl, by decide⟩

/-- Claim C2 as amended: for every epsilon-free grammar that is well-formed
(body symbols are terminals or nonterminals, nonterminals and terminals
are disjoint, primed names are fresh) and has no production whose body is
a single nonterminal, no head of eliminate_left_recursion, the introduced
primed nonterminals included, has a production whose body begins with that
head, directly or after any chain of substitutions of leading nonterminals
by their bodies. -/
theorem claim_C2_amended (G : CFG) (hEps : EpsFree G) (hUnit : NoUnitNT G)
    (hClosed : SymbolsClosed G) (hDisj : NSigmaDisjoint G) (hFresh : FreshPrimes G) :
    ∀ e ∈ (eliminate_left_recursion G).P, ∀ b0 ∈ e.2, ∀ w,
      LChain (eliminate_left_recursion G).P b0 w → w.head? ≠ some e.1 := by
  have hF := lr_final hEps hUnit hClosed hFresh
  have hnd := nodup_dedupFirst G.N
  intro e he b0 hb0 w hw
  obtain ⟨hk, horig, hprime⟩ := hF e he
  rcases hk with hko | hkp
  · obtain ⟨s, t, hbeq, hhead, -, -⟩ := horig hko b0 hb0
    obtain ⟨s2, t2, hweq, hs2⟩ :=
      lr_chain_orig_inv hDisj hFresh hF hw ⟨s, t, hbeq, hhead⟩
    rw [hweq]
    intro hcon
    have hs2e : s2 = e.1 := by simpa using hcon
    rcases hs2 with h2 | h2
    · exact hDisj e.1 ((mem_dedupFirst _ _).mp hko) (hs2e ▸ h2)
    · exact not_mem_afterFirst_self e.1 hnd (hs2e ▸ h2)
  · rcases hprime hkp b0 hb0 with hb0e | hb0p
    · rw [hb0e] at hw
      rw [lchain_from_nil hw]
      simp
    · obtain ⟨s, t, hbeq, hhead⟩ := hb0p
      have hq : s ∈ G.Sigma ∨ s ∈ dedupFirst G.N :=
        hhead.imp id (fun h => (mem_dedupFirst _ _).mpr h)
      obtain ⟨s2, t2, hweq, hs2⟩ :=
        lr_chain_any_inv hDisj hFresh hF hw ⟨s, t, hbeq, hq⟩
      rw [hweq]
      intro hcon
      have hs2e : s2 = e.1 := by simpa using hcon
      obtain ⟨A2, hA2, hkeq⟩ := hkp
      rcases hs2 with h2 | h2
      · refine (hFresh A2 hA2).2 ?_
        rw [← hkeq, ← hs2e]
        exact h2
      · refine (hFresh A2 hA2).1 ?_
        rw [← hkeq, ← hs2e]
        exact (mem_dedupFirst _ _).mp h2

theorem claim_C2_witness :
    (["a", "b", primeName "B"] : List String).head? ≠ some "B" :=
  claim_C2_amended gIndirect (by decide) (by decide) (by decide) (by decide)
    (by decide) ("B", [["a", "b", primeName "B"], ["b", primeName "B"]]) (by decide)
    ["a", "b", primeName "B"] (by decide) ["a", "b", primeName "B"]
    Relation.ReflTransGen.refl

/-- Claim C4: on a well-formed grammar whose nonterminal collection has the
list type annotated on the CFG constructor, eliminate_left_recursion
aborts as soon as a nonterminal needs direct-recursion separation, because
the add call is not a list method; the call does not return a grammar. -/
theorem claim_C4 : eliminate_left_recursion_listN gDirect = none ∧
    WellFormed gDirect := by
  refine ⟨by decide, by decide⟩

end Kklab2
